import Mathlib

/-!
# Relay core of `src/index.js`

A shallow embedding of the relay functions of `src/index.js`: the chunker `chunkMessage`, the
listener and timer callbacks of `sendMessage` and `sendShapeCommandAndWait`, the stream
registry (`streams`, `ensureStream`, `emitSSE`) and the per-conversation lock (`chatLocks`).

A JavaScript string is a sequence of UTF-16 code units; a code unit is a `Nat` here, so that
`List.length` is the `length` of the JavaScript string.
-/

namespace Relay

/-! ## Chunker (`src/index.js`, lines 65-83) -/

/-- JavaScript string seen as its UTF-16 code units. -/
abbrev JSString := List Nat

/-- Constant `DISCORD_MAX` of line 65. -/
def DISCORD_MAX : Nat := 2000

/-- Code units removed by `String.prototype.trimStart`: the ECMAScript `WhiteSpace` and
`LineTerminator` productions. -/
def isWhiteSpace (c : Nat) : Bool :=
  c == 9 || c == 10 || c == 11 || c == 12 || c == 13 || c == 32 || c == 160 || c == 5760 ||
  (8192 ≤ c && c ≤ 8202) || c == 8232 || c == 8233 || c == 8239 || c == 8287 ||
  c == 12288 || c == 65279

/-- Method `trimStart`: drop the leading white space. -/
def trimStart (s : JSString) : JSString :=
  s.dropWhile isWhiteSpace

/-- Method `lastIndexOf` with a one-unit needle: the index of the last occurrence of `c`,
`none` standing for `-1`. -/
def lastIndexOf (c : Nat) : JSString → Option Nat
  | [] => none
  | x :: xs =>
    match lastIndexOf c xs with
    | some i => some (i + 1)
    | none => if x = c then some 0 else none

/-- Lines 72-75: the split index chosen for `remaining` when it is longer than `max`.
The test `splitIndex < max * 0.5` on an integer `max` is `2 * splitIndex < max`. -/
def splitIndex (max : Nat) (remaining : JSString) : Nat :=
  let slice := remaining.take max
  let found :=
    match lastIndexOf 10 slice with
    | some i => some i
    | none => lastIndexOf 32 slice
  match found with
  | none => max
  | some i => if 2 * i < max then max else i

/-- The `while` loop of lines 71-79 followed by line 81, with the pushed chunks returned in
push order. The loop is run for at most `fuel` iterations: `none` means that it is still
running after them. -/
def chunkLoop (max : Nat) : Nat → JSString → Option (List JSString)
  | 0, _ => none
  | fuel + 1, remaining =>
    if remaining.length > max then
      (chunkLoop max fuel (trimStart (remaining.drop (splitIndex max remaining)))).map
        (fun chunks => remaining.take (splitIndex max remaining) :: chunks)
    else if remaining.length ≠ 0 then some [remaining]
    else some []

/-- Function `chunkMessage(text, max)` of lines 67-83. The loop is given `text.length + 1`
iterations, which is more than it takes when `max ≥ 1`. -/
def chunkMessage (text : JSString) (max : Nat) : Option (List JSString) :=
  chunkLoop max (text.length + 1) text

/-- The chunks with the white space dropped after each of them put back. -/
def rejoin : List JSString → List JSString → JSString
  | c :: cs, w :: ws => c ++ w ++ rejoin cs ws
  | _, _ => []

/-! ## Stream events (wire contract consumed by the listeners) -/

/-- Conversation id (`chatId`). -/
abbrev ChatId := String

/-- One element of `message.parts`. A field is `none` when it is absent or `null`; a `text`
that is not a string is represented by its string conversion, which is what `join` uses. -/
structure Part where
  type : Option String
  text : Option String
deriving DecidableEq, Repr

/-- Field `message` of a stream event. `parts` is `none` when the field is absent or is not
an array (calling `.filter` on it then throws a `TypeError`); an element of the array is
`none` when it is `null` (reading `p.type` on it throws). -/
structure Message where
  id : Option String
  role : Option String
  parts : Option (List (Option Part))
deriving DecidableEq, Repr

/-- The object handed to `emitSSE`: `{ chatId, ...JSON.parse(e.data) }` (line 223). -/
structure StreamEvent where
  chatId : ChatId
  type : Option String
  message : Option Message
deriving DecidableEq, Repr

/-- The `filter` of lines 332 and 415: keep the parts whose `type` is `'text'`; `none` when
the callback throws on a `null` element. -/
def filterText : List (Option Part) → Option (List Part)
  | [] => some []
  | none :: _ => none
  | some p :: ps =>
    (filterText ps).map (fun rest => if p.type = some "text" then p :: rest else rest)

/-- The `map(p => p.text)` and `join(sep)` of lines 333-334 and 416-417; `join` writes the
empty string for an element that is `undefined` or `null`. -/
def joinTexts (sep : String) (ps : List Part) : String :=
  sep.intercalate (ps.map (fun p => p.text.getD ""))

/-- The argument of `resolve` at lines 331-334 and 414-417: `none` when its evaluation
throws. -/
def replyText (sep : String) (msg : Message) : Option String :=
  match msg.parts with
  | none => none
  | some ps => (filterText ps).map (joinTexts sep)

/-! ## Correlation wait: the closure made by one `new Promise` executor -/

/-- The variables shared by the listener and the timer callback of one wait, with the
effects they have on the outside: `timerArmed` is false once the timer has fired or
`clearTimeout` was called, `subscribed` is false once `unsub()` was called, and
`resolveCalls` lists the arguments of the calls of `resolve` in order (`none` is `null`).
The promise is settled by the first of them. -/
structure Exchange where
  resolved : Bool
  seenUserMessage : Bool
  timerArmed : Bool
  subscribed : Bool
  resolveCalls : List (Option String)
deriving DecidableEq, Repr

/-- State right after `setTimeout` and `stream.subscribe` (lines 298, 305-315). -/
def Exchange.init : Exchange :=
  { resolved := false, seenUserMessage := false, timerArmed := true, subscribed := true,
    resolveCalls := [] }

/-- Field `message.role` read through `?.`. -/
def roleOf (e : StreamEvent) : Option String :=
  e.message.bind (fun m => m.role)

/-- Field `message.id` read through `?.`. -/
def idOf (e : StreamEvent) : Option String :=
  e.message.bind (fun m => m.id)

/-- Lines 326-335 and 409-418: `resolved = true; clearTimeout(timeout); unsub(); resolve(..)`.
The argument of `resolve` is evaluated after the first three statements; when it throws,
`resolve` is not called and the second component is `true`. -/
def accept (sep : String) (x : Exchange) (e : StreamEvent) : Exchange × Bool :=
  let x1 := { x with resolved := true, timerArmed := false, subscribed := false }
  match e.message.bind (replyText sep) with
  | some t => ({ x1 with resolveCalls := x1.resolveCalls ++ [some t] }, false)
  | none => (x1, true)

/-- The listener of `sendMessage` (lines 315-337) run on one event; the second component
tells whether it threw. -/
def sendMessageListener (userMessageId : String) (x : Exchange) (e : StreamEvent) :
    Exchange × Bool :=
  if x.resolved || e.type != some "new_message" then (x, false)
  else if idOf e == some userMessageId && roleOf e == some "user" then
    ({ x with seenUserMessage := true }, false)
  else if x.seenUserMessage && roleOf e == some "assistant" then accept "\n\n" x e
  else (x, false)

/-- The listener of `sendShapeCommandAndWait` (lines 405-420). -/
def commandListener (x : Exchange) (e : StreamEvent) : Exchange × Bool :=
  if x.resolved then (x, false)
  else if e.type == some "new_message" && roleOf e == some "assistant" then accept "\n" x e
  else (x, false)

/-- The timer callback (lines 305-311 and 397-403). -/
def timeoutCallback (x : Exchange) : Exchange :=
  if x.resolved then x
  else { x with resolved := true, subscribed := false, resolveCalls := x.resolveCalls ++ [none] }

/-- The timer fires: the callback runs if the timer is still armed, and the timer is no
longer armed then. -/
def fireTimer (x : Exchange) : Exchange :=
  if x.timerArmed then timeoutCallback { x with timerArmed := false } else x

/-- What can happen to one wait of `sendMessage`: a stream event reaches the listener, or
the timer callback runs. -/
inductive Signal where
  | event (e : StreamEvent)
  | timeout
deriving DecidableEq, Repr

/-- One wait of `sendMessage` reacting to a signal, the callbacks being run whether or not
they are still registered; a timer whose callback runs is no longer armed. -/
def react (userMessageId : String) (x : Exchange) : Signal → Exchange
  | .event e => (sendMessageListener userMessageId x e).1
  | .timeout => timeoutCallback { x with timerArmed := false }

/-- One wait of `sendMessage` as the runtime drives it: the dispatcher calls the listener
only while it is subscribed, the timer fires only while it is armed. -/
def drive (userMessageId : String) (x : Exchange) : Signal → Exchange
  | .event e => if x.subscribed then (sendMessageListener userMessageId x e).1 else x
  | .timeout => fireTimer x

/-- The promise of a wait: `none` while pending, `some v` once settled with `v`. -/
def Exchange.settled (x : Exchange) : Option (Option String) :=
  x.resolveCalls.head?

/-- Event that is the echo of the user message `u` (line 320). -/
def isEcho (u : String) (e : StreamEvent) : Bool :=
  e.type == some "new_message" && idOf e == some u && roleOf e == some "user"

/-- Event that is a `new_message` with role `assistant` (line 325). -/
def isAssistant (e : StreamEvent) : Bool :=
  e.type == some "new_message" && roleOf e == some "assistant"

/-- The wait of `sendMessage` after its listener was called with each event of a sequence,
in order. -/
def listen (userMessageId : String) (events : List StreamEvent) : Exchange :=
  events.foldl (fun x e => (sendMessageListener userMessageId x e).1) Exchange.init

/-- The wait of `sendMessage` after a sequence of signals. -/
def waitAfter (userMessageId : String) (signals : List Signal) : Exchange :=
  signals.foldl (react userMessageId) Exchange.init

/-- The wait is either not settled, or resolved, unsubscribed, with its timer off, and settled
by one call of `resolve`. -/
def SettledOnce (x : Exchange) : Prop :=
  x.resolveCalls = [] ∨
    (x.resolved = true ∧ x.subscribed = false ∧ x.timerArmed = false ∧
      ∃ v, x.resolveCalls = [v])

/-- The echo of the user message `u1` of the example of the specification. -/
def echoU1 : StreamEvent :=
  ⟨"abc", some "new_message", some ⟨some "u1", some "user", none⟩⟩

/-- The assistant message `r1` of the example of the specification, with one text part. -/
def replyHi : StreamEvent :=
  ⟨"abc", some "new_message",
    some ⟨some "r1", some "assistant", some [some ⟨some "text", some "Hi"⟩]⟩⟩

/-- An assistant message delivered before the echo. -/
def staleReply : StreamEvent :=
  ⟨"abc", some "new_message",
    some ⟨some "r0", some "assistant", some [some ⟨some "text", some "Old"⟩]⟩⟩

/-- An assistant message without a `parts` field. -/
def replyNoParts : StreamEvent :=
  ⟨"abc", some "new_message", some ⟨some "r2", some "assistant", none⟩⟩

/-- An assistant message whose `parts` holds a `null` element. -/
def replyNullPart : StreamEvent :=
  ⟨"abc", some "new_message", some ⟨some "r4", some "assistant", some [none]⟩⟩

/-! ## Relay state and the asynchronous functions

The functions are `async`: a call runs synchronously up to its first `await`, and each
continuation runs to completion when the awaited promise has settled. A call is a task; the
steps of the relay are the calls, the continuations, the upstream events and the timers. -/

/-- Value of `streams`: `{ listeners: new Set(), subscribe(cb) }` (lines 205-211). `ref` is
the identity of the object; `listeners` is the `Set` in insertion order, a callback being
named by the index of its wait. -/
structure Entry where
  ref : Nat
  listeners : List Nat
deriving DecidableEq, Repr

/-- Purpose of a call of `safeEvaluate` made by the relay: opening the event source
(lines 215-226), posting the user message (lines 339-359), posting a command (line 258). -/
inductive Eval where
  | openStream (chatId : ChatId)
  | send (chatId : ChatId) (userMessageId : String)
  | command (chatId : ChatId)
deriving DecidableEq, Repr

/-- One call of `safeEvaluate`; `reached` tells whether `pageAlive()` held, so that
`page.evaluate` was called. -/
structure EvalCall where
  what : Eval
  reached : Bool
deriving DecidableEq, Repr

/-- How the promise of `page.evaluate` settles. -/
inductive Outcome where
  | fulfilled
  | rejected
deriving DecidableEq, Repr

/-- How a function body completes. -/
inductive Completion (α : Type) where
  | normal (v : α)
  | abrupt
deriving DecidableEq, Repr

/-- Which function a wait belongs to. -/
inductive Kind where
  | message (userMessageId : String)
  | command
deriving DecidableEq, Repr

/-- Closure of one wait, with the conversation whose entry it subscribed to. -/
structure Wait where
  chatId : ChatId
  kind : Kind
  x : Exchange
deriving DecidableEq, Repr

/-- The listener of a wait. -/
def Wait.listener (w : Wait) (e : StreamEvent) : Exchange × Bool :=
  match w.kind with
  | .message u => sendMessageListener u w.x e
  | .command => commandListener w.x e

/-- The async functions of the relay. -/
inductive Fn where
  | sendMessage (userMessageId : String)
  | sendShapeCommandAndWait
  | ensureStream
deriving DecidableEq, Repr

/-- Returned values: the entry returned by `ensureStream`, or the text or `null` returned by
`sendMessage` and `sendShapeCommandAndWait`. -/
inductive Value where
  | handle (ref : Nat)
  | text (t : Option String)
deriving DecidableEq, Repr

/-- Where a task stands: inside `ensureStream`, which will return the entry `ref`; awaiting
the promise of wait `w`; returned; or thrown. -/
inductive Pc where
  | ensuring (ref : Nat)
  | waiting (w : Nat)
  | returned (v : Value)
  | threw
deriving DecidableEq, Repr

/-- A task that has not completed. -/
def Pc.active : Pc → Bool
  | .ensuring _ => true
  | .waiting _ => true
  | _ => false

/-- One call of an async function. -/
structure Task where
  fn : Fn
  chatId : ChatId
  pc : Pc
deriving DecidableEq, Repr

/-- The relay: the maps `streams` (line 63) and `chatLocks` (line 64, the keys mapped to
`true`), whether `pageAlive()` holds, the calls of `safeEvaluate` so far, the waits and the
tasks created so far. -/
structure State where
  streams : List (ChatId × Entry)
  chatLocks : List ChatId
  pageAlive : Bool
  nextRef : Nat
  evals : List EvalCall
  waits : List Wait
  tasks : List Task
deriving DecidableEq, Repr

/-- The relay at start-up. -/
def State.init : State :=
  { streams := [], chatLocks := [], pageAlive := true, nextRef := 0, evals := [], waits := [],
    tasks := [] }

/-- The listeners registered on a conversation: `streams.get(c).listeners`. -/
def listenersOf (s : State) (c : ChatId) : List Nat :=
  match s.streams.lookup c with
  | some entry => entry.listeners
  | none => []

/-- Apply `f` to the listener set of the entry of `c`. -/
def updateListeners (c : ChatId) (f : List Nat → List Nat) (streams : List (ChatId × Entry)) :
    List (ChatId × Entry) :=
  streams.map (fun p => if p.1 = c then (p.1, { p.2 with listeners := f p.2.listeners }) else p)

/-- Function `safeEvaluate` (lines 135-142) up to the call of `page.evaluate`. -/
def safeEvaluate (what : Eval) (s : State) : State :=
  { s with evals := s.evals ++ [⟨what, s.pageAlive⟩] }

/-- The value `safeEvaluate` completes with, given how `page.evaluate` settled: the `catch`
of line 139 turns a rejection into `null` (`none`). -/
def safeEvaluateReturn (o : Outcome) : Completion (Option Unit) :=
  match o with
  | .fulfilled => .normal (some ())
  | .rejected => .normal none

/-- Function `ensureStream` (lines 202-229) up to its `await`: the state, and the reference of
the entry it will return. -/
def ensureStream (c : ChatId) (s : State) : State × Nat :=
  match s.streams.lookup c with
  | some entry => (s, entry.ref)
  | none =>
    (safeEvaluate (.openStream c)
      { s with streams := s.streams ++ [(c, ⟨s.nextRef, []⟩)], nextRef := s.nextRef + 1 },
     s.nextRef)

/-- The rest of `ensureStream` (lines 215-228): it awaits `safeEvaluate`, drops its value and
returns the entry. -/
def ensureStreamReturn (ref : Nat) (o : Outcome) : Completion Nat :=
  match safeEvaluateReturn o with
  | .normal _ => .normal ref
  | .abrupt => .abrupt

/-- Record a new task. -/
def spawn (task : Task) (s : State) : State :=
  { s with tasks := s.tasks ++ [task] }

/-- Set the program counter of task `t`. -/
def setPc (t : Nat) (pc : Pc) (s : State) : State :=
  { s with tasks := s.tasks.modify (fun task => { task with pc := pc }) t }

/-- A call of `sendMessage(chatId, ..)` up to its first `await` (lines 293-301). -/
def sendMessage (c : ChatId) (u : String) (s : State) : State :=
  if c ∈ s.chatLocks then spawn ⟨.sendMessage u, c, .returned (.text none)⟩ s
  else
    let r := ensureStream c { s with chatLocks := s.chatLocks ++ [c] }
    spawn ⟨.sendMessage u, c, .ensuring r.2⟩ r.1

/-- A call of `sendShapeCommandAndWait(chatId, ..)` up to its first `await` (lines 388-391);
the empty string is the falsy conversation id. -/
def sendShapeCommandAndWait (c : ChatId) (s : State) : State :=
  if c = "" then spawn ⟨.sendShapeCommandAndWait, c, .returned (.text none)⟩ s
  else
    let r := ensureStream c s
    spawn ⟨.sendShapeCommandAndWait, c, .ensuring r.2⟩ r.1

/-- A call of `ensureStream(chatId)` by the message handler (line 729). -/
def ensureStreamCall (c : ChatId) (s : State) : State :=
  let r := ensureStream c s
  spawn ⟨.ensureStream, c, .ensuring r.2⟩ r.1

/-- The executor of `new Promise` (lines 304-359 and 394-422): arm the timer, subscribe the
listener on `streams.get(chatId)`, call `safeEvaluate` to post. The new wait is the last one.
The entry exists whenever a task reaches this point, see `ensuring_registered`. -/
def startWait (c : ChatId) (kind : Kind) (s : State) : State :=
  safeEvaluate
    (match kind with
     | .message u => .send c u
     | .command => .command c)
    { s with
      waits := s.waits ++ [⟨c, kind, Exchange.init⟩]
      streams := updateListeners c (fun ls => ls ++ [s.waits.length]) s.streams }

/-- The `finally` clause of `sendMessage` (lines 361-363), run however the `try` block
completes, then the completion of the call. -/
def sendMessageExit (t : Nat) (c : ChatId) (completion : Completion (Option String))
    (s : State) : State :=
  setPc t
    (match completion with
     | .normal v => .returned (.text v)
     | .abrupt => .threw)
    { s with chatLocks := s.chatLocks.filter (fun k => k ≠ c) }

/-- The continuation of task `t`, `o` being the outcome of the `page.evaluate` it awaits, if
any. -/
def resume (t : Nat) (o : Outcome) (s : State) : State :=
  match s.tasks[t]? with
  | none => s
  | some task =>
    match task.pc with
    | .ensuring ref =>
      match task.fn, ensureStreamReturn ref o with
      | .ensureStream, .normal r => setPc t (.returned (.handle r)) s
      | .ensureStream, .abrupt => setPc t .threw s
      | .sendMessage u, .normal _ =>
        setPc t (.waiting s.waits.length) (startWait task.chatId (.message u) s)
      | .sendMessage _, .abrupt => sendMessageExit t task.chatId .abrupt s
      | .sendShapeCommandAndWait, .normal _ =>
        setPc t (.waiting s.waits.length) (startWait task.chatId .command s)
      | .sendShapeCommandAndWait, .abrupt => setPc t .threw s
    | .waiting w =>
      match s.waits[w]? with
      | none => s
      | some wait =>
        match wait.x.settled, task.fn with
        | none, _ => s
        | some v, .sendMessage _ => sendMessageExit t task.chatId (.normal v) s
        | some v, _ => setPc t (.returned (.text v)) s
    | _ => s

/-- Store the closure state `x` of wait `w` and apply its `unsub()` to the registry:
`this.listeners.delete(cb)` (line 209). -/
def storeWait (w : Nat) (wait : Wait) (x : Exchange) (s : State) : State :=
  { s with
    waits := s.waits.set w { wait with x := x }
    streams :=
      if x.subscribed then s.streams
      else updateListeners wait.chatId (fun ls => ls.filter (fun k => k ≠ w)) s.streams }

/-- The dispatcher calls listener `w` with `e`; the second component tells whether the
listener threw. -/
def invoke (w : Nat) (e : StreamEvent) (s : State) : State × Bool :=
  match s.waits[w]? with
  | none => (s, false)
  | some wait => (storeWait w wait (wait.listener e).1 s, (wait.listener e).2)

/-- The `forEach` of line 194 over the listeners not visited yet. A listener deleted before
its turn is skipped, and an exception leaves the loop. Listeners are never added during the
loop, so the list taken at its start is the one iterated. -/
def forEachListener (e : StreamEvent) : List Nat → State → State
  | [], s => s
  | w :: ws, s =>
    if w ∈ listenersOf s e.chatId then
      if (invoke w e s).2 then (invoke w e s).1 else forEachListener e ws (invoke w e s).1
    else forEachListener e ws s

/-- The dispatcher `emitSSE` (lines 191-195). -/
def emitSSE (data : StreamEvent) (s : State) : State :=
  match s.streams.lookup data.chatId with
  | none => s
  | some entry => forEachListener data entry.listeners s

/-- The timer of wait `w` fires. -/
def timer (w : Nat) (s : State) : State :=
  match s.waits[w]? with
  | none => s
  | some wait => if wait.x.timerArmed then storeWait w wait (fireTimer wait.x) s else s

/-- The steps of the relay. -/
inductive Action where
  | sendMessage (chatId : ChatId) (userMessageId : String)
  | sendShapeCommandAndWait (chatId : ChatId)
  | ensureStream (chatId : ChatId)
  | resume (t : Nat) (o : Outcome)
  | emitSSE (data : StreamEvent)
  | timer (w : Nat)
  | page (alive : Bool)
deriving DecidableEq, Repr

/-- One step of the relay. -/
def step (s : State) : Action → State
  | .sendMessage c u => sendMessage c u s
  | .sendShapeCommandAndWait c => sendShapeCommandAndWait c s
  | .ensureStream c => ensureStreamCall c s
  | .resume t o => resume t o s
  | .emitSSE data => emitSSE data s
  | .timer w => timer w s
  | .page alive => { s with pageAlive := alive }

/-- The relay after a sequence of steps. -/
def run (s : State) (actions : List Action) : State :=
  actions.foldl step s

/-- The listeners registered on `c` whose wait is not resolved. -/
def unsettledListeners (s : State) (c : ChatId) : List Nat :=
  (listenersOf s c).filter (fun w =>
    match s.waits[w]? with
    | some wait => !wait.x.resolved
    | none => false)

/-- The listeners of `sendMessage` registered on `c` whose wait is not resolved. -/
def unsettledMessageListeners (s : State) (c : ChatId) : List Nat :=
  (listenersOf s c).filter (fun w =>
    match s.waits[w]? with
    | some ⟨_, .message _, x⟩ => !x.resolved
    | _ => false)

/-- The number of calls of `safeEvaluate` made to open the event source of `c`. -/
def opens (s : State) (c : ChatId) : Nat :=
  (s.evals.filter (fun call => call.what = .openStream c)).length

/-- The number of entries of `streams` with key `c`. -/
def entries (s : State) (c : ChatId) : Nat :=
  (s.streams.filter (fun p => p.1 = c)).length

/-- A call of `ensureStream(c)` followed by its continuation. -/
def ensureStreamDone (s : State) (c : ChatId) (o : Outcome) : State :=
  step (step s (.ensureStream c)) (.resume s.tasks.length o)

/-- The relay with the page closed. -/
def pageDown : State :=
  step State.init (.page false)

/-- The relay once the wait of `sendMessage("abc", ..)` with id `u1` has been settled by the
reply of the example of the specification, before the continuation of the call has run. -/
def served : State :=
  run State.init [.sendMessage "abc" "u1", .resume 0 .fulfilled, .emitSSE echoU1,
    .emitSSE replyHi]

/-- Between `s` and `s'` the entry of `c` is the same object, and the number of calls opening
its event source and the number of its entries are the same. -/
def Stable (c : ChatId) (s s' : State) : Prop :=
  (s'.streams.lookup c).map Entry.ref = (s.streams.lookup c).map Entry.ref ∧
  opens s' c = opens s c ∧ entries s' c = entries s c

/-- Task `t` is a call of `ensureStream(c)` that returns, or has returned, the entry `r`. -/
def EnsureStreamTask (s : State) (t : Nat) (c : ChatId) (r : Nat) : Prop :=
  s.tasks[t]? = some ⟨.ensureStream, c, .ensuring r⟩ ∨
  s.tasks[t]? = some ⟨.ensureStream, c, .returned (.handle r)⟩

/-- Two calls of `ensureStream(c)` with the steps `mid` between them. -/
def ensureStreamTwice (s : State) (c : ChatId) (mid : List Action) : State :=
  step (run (step s (.ensureStream c)) mid) (.ensureStream c)

/-- Consistency of the listener sets `L` (by conversation), the waits `W`, the tasks `T` and the
lock table `K`: a registered listener names an existing wait of that conversation that is not
resolved, the listener sets have no repetition, a wait that is not resolved has no call of
`resolve`, a registered listener of `sendMessage` belongs to a call of `sendMessage` on that
conversation that awaits it, a running call of `sendMessage` holds the lock of its
conversation, and no two running calls of `sendMessage` are on the same conversation. -/
structure Consistent (L : ChatId → List Nat) (W : List Wait) (T : List Task)
    (K : List ChatId) : Prop where
  lt : ∀ (c : ChatId) (w : Nat), w ∈ L c → w < W.length
  nodup : ∀ c : ChatId, (L c).Nodup
  fresh : ∀ (c : ChatId) (w : Nat) (wait : Wait), w ∈ L c → W[w]? = some wait →
    wait.chatId = c ∧ wait.x.resolved = false
  calls : ∀ (w : Nat) (wait : Wait), W[w]? = some wait → wait.x.resolved = false →
    wait.x.resolveCalls = []
  owner : ∀ (c : ChatId) (w : Nat) (wait : Wait) (u : String), w ∈ L c → W[w]? = some wait →
    wait.kind = .message u →
    ∃ (t : Nat) (u' : String), T[t]? = some (Task.mk (.sendMessage u') c (.waiting w))
  locked : ∀ (t : Nat) (u : String) (c : ChatId) (pc : Pc),
    T[t]? = some (Task.mk (.sendMessage u) c pc) → pc.active = true → c ∈ K
  unique : ∀ (t1 t2 : Nat) (u1 u2 : String) (c : ChatId) (pc1 pc2 : Pc),
    T[t1]? = some (Task.mk (.sendMessage u1) c pc1) →
    T[t2]? = some (Task.mk (.sendMessage u2) c pc2) →
    pc1.active = true → pc2.active = true → t1 = t2

/-- Consistency of a state of the relay. -/
def State.consistent (s : State) : Prop :=
  Consistent (listenersOf s) s.waits s.tasks s.chatLocks

/-- What a callback may do to the closure of a wait, as far as consistency goes: a wait that
was not resolved and is still subscribed is still not resolved, and if it had no call of
`resolve` while not resolved, this is still so. -/
def Guarded (x x' : Exchange) : Prop :=
  (x.resolved = false → x'.subscribed = true → x'.resolved = false) ∧
  ((x.resolved = false → x.resolveCalls = []) → x'.resolved = false → x'.resolveCalls = [])

/-- Every task that is inside `ensureStream` has an entry for its conversation. -/
def State.ensuringRegistered (s : State) : Prop :=
  ∀ (t : Nat) (task : Task) (ref : Nat), s.tasks[t]? = some task → task.pc = .ensuring ref →
    s.streams.lookup task.chatId ≠ none

/-- Two calls of `sendShapeCommandAndWait` on one conversation, both past `ensureStream`. -/
def twoCommands : State :=
  run State.init [.sendShapeCommandAndWait "abc", .sendShapeCommandAndWait "abc",
    .resume 0 .fulfilled, .resume 1 .fulfilled]

/-- A call of `sendMessage` and a call of `sendShapeCommandAndWait` on one conversation, both
past `ensureStream`. -/
def messageAndCommand : State :=
  run State.init [.sendMessage "abc" "u1", .resume 0 .fulfilled,
    .sendShapeCommandAndWait "abc", .resume 1 .fulfilled]

/-- Whether listener `w` throws when it is called with `e` in state `s`. -/
def throwsOn (s : State) (e : StreamEvent) (w : Nat) : Bool :=
  match s.waits[w]? with
  | some wait => (wait.listener e).2
  | none => false

/-- The loop `forEachListener` together with the listeners it called, in call order. -/
def forEachCalls (e : StreamEvent) : List Nat → State → State × List Nat
  | [], s => (s, [])
  | w :: ws, s =>
    if w ∈ listenersOf s e.chatId then
      if (invoke w e s).2 then ((invoke w e s).1, [w])
      else ((forEachCalls e ws (invoke w e s).1).1, w :: (forEachCalls e ws (invoke w e s).1).2)
    else forEachCalls e ws s

/-- The dispatcher `emitSSE` together with the listeners it called, in call order. -/
def emitSSECalls (data : StreamEvent) (s : State) : State × List Nat :=
  match s.streams.lookup data.chatId with
  | none => (s, [])
  | some entry => forEachCalls data entry.listeners s

/-! ### Chunker lemmas -/

theorem lastIndexOf_lt (c : Nat) (s : JSString) (i : Nat) (h : lastIndexOf c s = some i) :
    i < s.length := by
  induction s generalizing i with
  | nil => simp [lastIndexOf] at h
  | cons x xs ih =>
    cases hx : lastIndexOf c xs with
    | some j =>
      simp only [lastIndexOf, hx, Option.some.injEq] at h
      have := ih j hx
      simp only [List.length_cons]
      omega
    | none =>
      simp only [lastIndexOf, hx] at h
      simp only [List.length_cons]
      by_cases hc : x = c
      · simp only [hc, if_true, Option.some.injEq] at h
        omega
      · simp [hc] at h

theorem splitIndex_le (max : Nat) (remaining : JSString) :
    splitIndex max remaining ≤ max := by
  unfold splitIndex
  simp only
  split
  · exact le_rfl
  · rename_i i hi
    split
    · exact le_rfl
    · have hlt : i < (remaining.take max).length := by
        split at hi
        · rename_i j hj
          simp only [Option.some.injEq] at hi
          subst hi
          exact lastIndexOf_lt _ _ _ hj
        · exact lastIndexOf_lt _ _ _ hi
      simp only [List.length_take] at hlt
      omega

theorem splitIndex_pos (max : Nat) (remaining : JSString) (hmax : 1 ≤ max) :
    1 ≤ splitIndex max remaining := by
  unfold splitIndex
  simp only
  split
  · exact hmax
  · split
    · exact hmax
    · omega

theorem trimStart_length_le (s : JSString) : (trimStart s).length ≤ s.length := by
  unfold trimStart
  have h := congrArg List.length (List.takeWhile_append_dropWhile isWhiteSpace s)
  simp only [List.length_append] at h
  omega

theorem takeWhile_whiteSpace (s : JSString) :
    ∀ ch ∈ s.takeWhile isWhiteSpace, isWhiteSpace ch = true := by
  intro ch hch
  exact (List.mem_takeWhile_imp hch)

/-- One run of the loop that has enough iterations left returns chunks that are at most `max`
long and not empty, and the input is the chunks with white space put back after each. -/
theorem chunkLoop_spec (max : Nat) (hmax : 1 ≤ max) :
    ∀ (fuel : Nat) (remaining : JSString), remaining.length < fuel →
      ∃ chunks gaps, chunkLoop max fuel remaining = some chunks ∧
        (∀ c ∈ chunks, c.length ≤ max ∧ c ≠ []) ∧
        gaps.length = chunks.length ∧
        (∀ g ∈ gaps, ∀ ch ∈ g, isWhiteSpace ch = true) ∧
        rejoin chunks gaps = remaining := by
  intro fuel
  induction fuel with
  | zero => intro remaining h; omega
  | succ fuel ih =>
    intro remaining hlen
    by_cases hlong : remaining.length > max
    · have hle := splitIndex_le max remaining
      have hpos := splitIndex_pos max remaining hmax
      have htrim := trimStart_length_le (remaining.drop (splitIndex max remaining))
      have hdrop : (remaining.drop (splitIndex max remaining)).length
          = remaining.length - splitIndex max remaining := List.length_drop _ _
      obtain ⟨chunks, gaps, hrun, hsize, hgl, hws, hjoin⟩ :=
        ih (trimStart (remaining.drop (splitIndex max remaining))) (by omega)
      refine ⟨remaining.take (splitIndex max remaining) :: chunks,
        (remaining.drop (splitIndex max remaining)).takeWhile isWhiteSpace :: gaps,
        ?_, ?_, ?_, ?_, ?_⟩
      · simp only [chunkLoop, hlong, if_true, hrun, Option.map_some']
      · intro c hc
        rcases List.mem_cons.mp hc with rfl | hc
        · constructor
          · simp only [List.length_take]; omega
          · intro hnil
            have := congrArg List.length hnil
            simp only [List.length_take, List.length_nil] at this
            omega
        · exact hsize c hc
      · simp only [List.length_cons, hgl]
      · intro g hg
        rcases List.mem_cons.mp hg with rfl | hg
        · exact takeWhile_whiteSpace _
        · exact hws g hg
      · simp only [rejoin, hjoin, trimStart, List.append_assoc,
          List.takeWhile_append_dropWhile, List.take_append_drop]
    · by_cases hne : remaining.length ≠ 0
      · refine ⟨[remaining], [[]], ?_, ?_, rfl, ?_, ?_⟩
        · simp [chunkLoop, hlong, hne]
        · intro c hc
          rw [List.mem_singleton] at hc
          subst hc
          refine ⟨by omega, ?_⟩
          intro hnil
          rw [hnil] at hne
          exact hne rfl
        · intro g hg ch hch
          rw [List.mem_singleton] at hg
          subst hg
          cases hch
        · simp [rejoin]
      · refine ⟨[], [], ?_, ?_, rfl, ?_, ?_⟩
        · simp [chunkLoop, hlong, hne]
        · intro c hc; cases hc
        · intro g hg; cases hg
        · have h0 : remaining = [] := List.length_eq_zero.mp (not_not.mp hne)
          simp [rejoin, h0]

theorem rejoin_filter (chunks gaps : List JSString) (hlen : gaps.length = chunks.length)
    (hws : ∀ g ∈ gaps, ∀ ch ∈ g, isWhiteSpace ch = true) :
    (rejoin chunks gaps).filter (fun ch => !isWhiteSpace ch)
      = chunks.flatten.filter (fun ch => !isWhiteSpace ch) := by
  induction chunks generalizing gaps with
  | nil => simp [rejoin]
  | cons c cs ih =>
    cases gaps with
    | nil => simp at hlen
    | cons g gs =>
      have hg : g.filter (fun ch => !isWhiteSpace ch) = [] := by
        rw [List.filter_eq_nil_iff]
        intro ch hch
        simp [hws g (List.mem_cons_self _ _) ch hch]
      simp only [rejoin, List.flatten_cons, List.filter_append, hg, List.append_nil]
      rw [ih gs (by simpa using hlen) (fun g' hg' => hws g' (List.mem_cons_of_mem _ hg'))]

/-! ### Claims on the chunker -/

/-- C1: for every text and every `max ≥ 1`, `chunkMessage` returns, and every chunk it returns
has length at most `max`. -/
theorem chunkMessage_length_le (text : JSString) (max : Nat) (hmax : 1 ≤ max) :
    ∃ chunks, chunkMessage text max = some chunks ∧ ∀ c ∈ chunks, c.length ≤ max := by
  obtain ⟨chunks, _, hrun, hsize, _⟩ :=
    chunkLoop_spec max hmax (text.length + 1) text (Nat.lt_succ_self _)
  exact ⟨chunks, hrun, fun c hc => (hsize c hc).1⟩

/-- C1 at the default size: a text of 12 units with one line break is cut into chunks of at
most `DISCORD_MAX` units, and so is any text. -/
theorem chunkMessage_length_le_witness :
    1 ≤ DISCORD_MAX ∧
    ∃ chunks, chunkMessage [72, 101, 108, 108, 111, 10, 119, 111, 114, 108, 100, 33] DISCORD_MAX
        = some chunks ∧ ∀ c ∈ chunks, c.length ≤ DISCORD_MAX :=
  ⟨by decide, chunkMessage_length_le _ DISCORD_MAX (by decide)⟩

/-- C2: for every text and every `max ≥ 1`, the chunks returned by `chunkMessage` rebuild the
text once a run of white space (possibly empty) is put back after each chunk; hence the units
of the text that are not white space are those of the chunks, in the same order. -/
theorem chunkMessage_rejoin (text : JSString) (max : Nat) (hmax : 1 ≤ max) :
    ∃ chunks gaps, chunkMessage text max = some chunks ∧
      gaps.length = chunks.length ∧
      (∀ g ∈ gaps, ∀ ch ∈ g, isWhiteSpace ch = true) ∧
      rejoin chunks gaps = text ∧
      text.filter (fun ch => !isWhiteSpace ch) = chunks.flatten.filter (fun ch => !isWhiteSpace ch) := by
  obtain ⟨chunks, gaps, hrun, _, hgl, hws, hjoin⟩ :=
    chunkLoop_spec max hmax (text.length + 1) text (Nat.lt_succ_self _)
  refine ⟨chunks, gaps, hrun, hgl, hws, hjoin, ?_⟩
  rw [← hjoin]
  exact rejoin_filter chunks gaps hgl hws

/-- C2 on a text cut at a space: `"ab  cd"` with `max = 3`. -/
theorem chunkMessage_rejoin_witness :
    ∃ chunks gaps, chunkMessage [97, 98, 32, 32, 99, 100] 3 = some chunks ∧
      gaps.length = chunks.length ∧
      (∀ g ∈ gaps, ∀ ch ∈ g, isWhiteSpace ch = true) ∧
      rejoin chunks gaps = [97, 98, 32, 32, 99, 100] ∧
      [97, 98, 32, 32, 99, 100].filter (fun ch => !isWhiteSpace ch)
        = chunks.flatten.filter (fun ch => !isWhiteSpace ch) :=
  chunkMessage_rejoin [97, 98, 32, 32, 99, 100] 3 (by decide)

/-! ### Listener lemmas -/

theorem filterText_map_some (ps : List Part) :
    filterText (ps.map some) = some (ps.filter (fun p => p.type = some "text")) := by
  induction ps with
  | nil => rfl
  | cons p ps ih =>
    simp only [List.map_cons, filterText, ih, Option.map_some', List.filter_cons]
    by_cases hp : p.type = some "text" <;> simp [hp]

theorem listener_resolved (u : String) (x : Exchange) (e : StreamEvent)
    (hx : x.resolved = true) : sendMessageListener u x e = (x, false) := by
  simp [sendMessageListener, hx]

theorem listener_before_echo (u : String) (x : Exchange) (e : StreamEvent)
    (hseen : x.seenUserMessage = false) (he : isEcho u e = false) :
    (sendMessageListener u x e).1 = x := by
  unfold sendMessageListener
  by_cases h1 : (x.resolved || e.type != some "new_message") = true
  · simp [h1]
  · have hty : e.type = some "new_message" := by
      simp only [Bool.or_eq_true, bne_iff_ne, ne_eq, not_or, Decidable.not_not] at h1
      exact h1.2
    have hne : (idOf e == some u && roleOf e == some "user") = false := by
      simpa [isEcho, hty] using he
    simp [h1, hne, hseen]

theorem listener_awaiting_reply (u : String) (x : Exchange) (e : StreamEvent)
    (hseen : x.seenUserMessage = true) (he : isAssistant e = false) :
    (sendMessageListener u x e).1 = x := by
  unfold sendMessageListener
  by_cases h1 : (x.resolved || e.type != some "new_message") = true
  · simp [h1]
  · have hty : e.type = some "new_message" := by
      simp only [Bool.or_eq_true, bne_iff_ne, ne_eq, not_or, Decidable.not_not] at h1
      exact h1.2
    have hne : (roleOf e == some "assistant") = false := by
      simpa [isAssistant, hty] using he
    by_cases h2 : (idOf e == some u && roleOf e == some "user") = true
    · simp only [h1, h2, if_true, Bool.false_eq_true, if_false]
      cases x
      simp only at hseen
      simp [hseen]
    · simp [h1, h2, hne]

theorem foldl_listener_fixed (u : String) (events : List StreamEvent) (x : Exchange)
    (h : ∀ e ∈ events, (sendMessageListener u x e).1 = x) :
    events.foldl (fun x e => (sendMessageListener u x e).1) x = x := by
  induction events with
  | nil => rfl
  | cons e es ih =>
    simp only [List.foldl_cons, h e (List.mem_cons_self _ _)]
    exact ih (fun e' he' => h e' (List.mem_cons_of_mem _ he'))

/-! ### Claims on the wait of `sendMessage` -/

/-- When the events hold an echo of the user message `u` (a `new_message` with id `u` and
role `user`) and later a `new_message` with role `assistant` that carries a list of parts
without `null` element, the promise of `sendMessage` is settled with the `text` of the parts
of type `text` of the first such assistant message after the first echo, in order, joined by
a blank line; the events before the echo, assistant messages included, and the events after
the reply do not count. -/
theorem sendMessage_resolves_reply_after_echo (u : String)
    (pre mid post : List StreamEvent) (echo reply : StreamEvent) (m : Message) (ps : List Part)
    (hpre : ∀ e ∈ pre, isEcho u e = false) (hecho : isEcho u echo = true)
    (hmid : ∀ e ∈ mid, isAssistant e = false) (hreply : isAssistant reply = true)
    (hm : reply.message = some m) (hparts : m.parts = some (ps.map some)) :
    (listen u (pre ++ echo :: (mid ++ reply :: post))).resolveCalls
      = [some ("\n\n".intercalate
          ((ps.filter (fun p => p.type = some "text")).map (fun p => p.text.getD "")))] := by
  have hstep1 : (sendMessageListener u Exchange.init echo).1
      = { Exchange.init with seenUserMessage := true } := by
    simp only [isEcho, Bool.and_eq_true, beq_iff_eq] at hecho
    obtain ⟨⟨hty, hid⟩, hrole⟩ := hecho
    simp [sendMessageListener, Exchange.init, hty, hid, hrole]
  have hstep2 : (sendMessageListener u { Exchange.init with seenUserMessage := true } reply).1
      = { resolved := true, seenUserMessage := true, timerArmed := false, subscribed := false,
          resolveCalls := [some ("\n\n".intercalate
            ((ps.filter (fun p => p.type = some "text")).map (fun p => p.text.getD "")))] } := by
    simp only [isAssistant, Bool.and_eq_true, beq_iff_eq] at hreply
    obtain ⟨hty, hrole⟩ := hreply
    simp [sendMessageListener, Exchange.init, hty, hrole, accept, hm, replyText, hparts,
      filterText_map_some, joinTexts]
  unfold listen
  rw [List.foldl_append, foldl_listener_fixed u pre _
    (fun e he => listener_before_echo u _ e rfl (hpre e he))]
  rw [List.foldl_cons, hstep1, List.foldl_append, foldl_listener_fixed u mid _
    (fun e he => listener_awaiting_reply u _ e rfl (hmid e he))]
  rw [List.foldl_cons, hstep2, foldl_listener_fixed u post _
    (fun e _ => by rw [listener_resolved u _ e rfl])]

/-- The example of the specification, preceded by a stale assistant message: the promise is
settled with `"Hi"`. -/
theorem sendMessage_resolves_reply_after_echo_witness :
    (listen "u1" ([staleReply] ++ echoU1 :: ([] ++ replyHi :: []))).resolveCalls
      = [some "Hi"] :=
  sendMessage_resolves_reply_after_echo "u1" [staleReply] [] [] echoU1 replyHi
    ⟨some "r1", some "assistant", some [some ⟨some "text", some "Hi"⟩]⟩
    [⟨some "text", some "Hi"⟩] (by decide) (by decide) (by decide) (by decide) rfl rfl

/-- C3 fails when the first assistant message after the echo has no usable `parts`: after
the echo of `u1`, an assistant message without `parts`, or with a `null` element in `parts`,
is a `new_message` with role `assistant` that follows the echo, yet the listener throws
before `resolve`, and `resolve` is never called whatever events follow, a well-formed reply
among them. -/
theorem sendMessage_reply_without_parts_unresolved (post : List StreamEvent) :
    isEcho "u1" echoU1 = true ∧ isAssistant replyNoParts = true ∧
    isAssistant replyNullPart = true ∧
    (listen "u1" (echoU1 :: replyNoParts :: post)).resolveCalls = [] ∧
    (listen "u1" (echoU1 :: replyNullPart :: post)).resolveCalls = [] ∧
    (listen "u1" (echoU1 :: replyNoParts :: replyHi :: post)).settled = none ∧
    (sendMessageListener "u1" (listen "u1" [echoU1]) replyNullPart).2 = true := by
  have hstuck : ∀ (bad : StreamEvent) (rest : List StreamEvent),
      (sendMessageListener "u1" (sendMessageListener "u1" Exchange.init echoU1).1 bad).1
        = { resolved := true, seenUserMessage := true, timerArmed := false,
            subscribed := false, resolveCalls := [] } →
      (listen "u1" (echoU1 :: bad :: rest)).resolveCalls = [] := by
    intro bad rest hbad
    unfold listen
    rw [List.foldl_cons, List.foldl_cons, hbad, foldl_listener_fixed "u1" rest _
      (fun e _ => by rw [listener_resolved "u1" _ e rfl])]
  have h1 := hstuck replyNoParts post (by decide)
  have h2 := hstuck replyNullPart post (by decide)
  have h3 := hstuck replyNoParts (replyHi :: post) (by decide)
  refine ⟨by decide, by decide, by decide, h1, h2, ?_, by decide⟩
  simp [Exchange.settled, h3]

/-- A wait that is resolved and has its timer off is left as it is by every signal. -/
theorem resolved_fixed (u : String) (x : Exchange) (sig : Signal)
    (hres : x.resolved = true) (htimer : x.timerArmed = false) :
    react u x sig = x ∧ drive u x sig = x := by
  cases sig with
  | event e => simp [react, drive, listener_resolved u x e hres]
  | timeout =>
    cases x
    simp only at hres htimer
    subst hres htimer
    simp [react, drive, fireTimer, timeoutCallback]

theorem stuck_forever (u : String) (signals : List Signal) (x : Exchange)
    (hres : x.resolved = true) (htimer : x.timerArmed = false) :
    (signals.foldl (drive u) x) = x ∧ (signals.foldl (react u) x) = x := by
  induction signals with
  | nil => exact ⟨rfl, rfl⟩
  | cons sig rest ih =>
    simp only [List.foldl_cons, (resolved_fixed u x sig hres htimer).1,
      (resolved_fixed u x sig hres htimer).2]
    exact ih

/-- C4 fails on the echo followed by an assistant message without `parts`: the listener sets
`resolved`, cancels the timer and unsubscribes, then throws before `resolve` is called; from
then on, whatever events arrive and whenever the timer would fire, the promise stays pending
with its timer cancelled. -/
theorem sendMessage_wait_left_pending (later : List Signal) :
    ((([Signal.event echoU1, Signal.event replyNoParts] ++ later).foldl
        (drive "u1") Exchange.init).settled = none) ∧
    ((([Signal.event echoU1, Signal.event replyNoParts] ++ later).foldl
        (drive "u1") Exchange.init).timerArmed = false) ∧
    ((waitAfter "u1" ([Signal.event echoU1, Signal.event replyNoParts] ++ later)).settled
        = none) ∧
    (sendMessageListener "u1" (listen "u1" [echoU1]) replyNoParts).2 = true := by
  have hd : [Signal.event echoU1, Signal.event replyNoParts].foldl (drive "u1") Exchange.init
      = { resolved := true, seenUserMessage := true, timerArmed := false, subscribed := false,
          resolveCalls := [] } := by decide
  have hr : [Signal.event echoU1, Signal.event replyNoParts].foldl (react "u1") Exchange.init
      = { resolved := true, seenUserMessage := true, timerArmed := false, subscribed := false,
          resolveCalls := [] } := by decide
  unfold waitAfter
  rw [List.foldl_append, List.foldl_append, hd, hr]
  rw [(stuck_forever "u1" later _ rfl rfl).1, (stuck_forever "u1" later _ rfl rfl).2]
  exact ⟨rfl, rfl, rfl, by decide⟩

theorem settledOnce_react (u : String) (x : Exchange) (sig : Signal) (h : SettledOnce x) :
    SettledOnce (react u x sig) := by
  cases sig with
  | timeout =>
    simp only [react, timeoutCallback]
    by_cases hres : x.resolved = true
    · rcases h with h | ⟨h1, h2, h3, h4⟩
      · left; simpa [hres] using h
      · right; simpa [hres] using ⟨h2, h4⟩
    · rcases h with h | ⟨h, _⟩
      · right
        simp [hres, h]
      · exact absurd h hres
  | event e =>
    simp only [react, sendMessageListener]
    by_cases h1 : (x.resolved || e.type != some "new_message") = true
    · simpa [h1] using h
    · have hres : x.resolved = false := by
        simp only [Bool.or_eq_true, not_or, Bool.not_eq_true] at h1
        exact h1.1
      have hcalls : x.resolveCalls = [] := by
        rcases h with h | ⟨h, _⟩
        · exact h
        · rw [hres] at h; cases h
      simp only [h1, Bool.false_eq_true, if_false]
      split
      · left; exact hcalls
      · split
        · simp only [accept]
          split
          · right; simp [hcalls]
          · left; exact hcalls
        · left; exact hcalls

theorem settledOnce_waitAfter (u : String) (signals : List Signal) :
    SettledOnce (waitAfter u signals) := by
  have key : ∀ (x : Exchange), SettledOnce x → SettledOnce (signals.foldl (react u) x) := by
    induction signals with
    | nil => exact fun x h => h
    | cons sig rest ih => exact fun x h => ih _ (settledOnce_react u x sig h)
  exact key _ (Or.inl rfl)

/-! ### Frame lemmas of the relay steps -/

theorem ensureStream_frame (c : ChatId) (s : State) :
    (ensureStream c s).1.tasks = s.tasks ∧ (ensureStream c s).1.waits = s.waits ∧
    (ensureStream c s).1.chatLocks = s.chatLocks ∧
    (ensureStream c s).1.pageAlive = s.pageAlive := by
  unfold ensureStream
  cases s.streams.lookup c <;> simp [safeEvaluate]

theorem storeWait_frame (w : Nat) (wait : Wait) (x : Exchange) (s : State) :
    (storeWait w wait x s).tasks = s.tasks ∧ (storeWait w wait x s).chatLocks = s.chatLocks ∧
    (storeWait w wait x s).evals = s.evals ∧ (storeWait w wait x s).pageAlive = s.pageAlive ∧
    (storeWait w wait x s).nextRef = s.nextRef :=
  ⟨rfl, rfl, rfl, rfl, rfl⟩

theorem invoke_frame (w : Nat) (e : StreamEvent) (s : State) :
    (invoke w e s).1.tasks = s.tasks ∧ (invoke w e s).1.chatLocks = s.chatLocks ∧
    (invoke w e s).1.evals = s.evals ∧ (invoke w e s).1.pageAlive = s.pageAlive ∧
    (invoke w e s).1.nextRef = s.nextRef := by
  unfold invoke
  cases s.waits[w]? with
  | none => exact ⟨rfl, rfl, rfl, rfl, rfl⟩
  | some wait => exact storeWait_frame _ _ _ _

theorem forEachListener_frame (e : StreamEvent) (ws : List Nat) (s : State) :
    (forEachListener e ws s).tasks = s.tasks ∧
    (forEachListener e ws s).chatLocks = s.chatLocks ∧
    (forEachListener e ws s).evals = s.evals ∧
    (forEachListener e ws s).pageAlive = s.pageAlive ∧
    (forEachListener e ws s).nextRef = s.nextRef := by
  induction ws generalizing s with
  | nil => exact ⟨rfl, rfl, rfl, rfl, rfl⟩
  | cons w ws ih =>
    have hi := invoke_frame w e s
    have hrec := ih (invoke w e s).1
    simp only [forEachListener]
    split
    · split
      · exact hi
      · exact ⟨hrec.1.trans hi.1, hrec.2.1.trans hi.2.1, hrec.2.2.1.trans hi.2.2.1,
          hrec.2.2.2.1.trans hi.2.2.2.1, hrec.2.2.2.2.trans hi.2.2.2.2⟩
    · exact ih s

theorem emitSSE_frame (e : StreamEvent) (s : State) :
    (emitSSE e s).tasks = s.tasks ∧ (emitSSE e s).chatLocks = s.chatLocks ∧
    (emitSSE e s).evals = s.evals ∧ (emitSSE e s).pageAlive = s.pageAlive ∧
    (emitSSE e s).nextRef = s.nextRef := by
  unfold emitSSE
  cases s.streams.lookup e.chatId with
  | none => exact ⟨rfl, rfl, rfl, rfl, rfl⟩
  | some entry => exact forEachListener_frame _ _ _

theorem timer_frame (w : Nat) (s : State) :
    (timer w s).tasks = s.tasks ∧ (timer w s).chatLocks = s.chatLocks ∧
    (timer w s).evals = s.evals ∧ (timer w s).pageAlive = s.pageAlive ∧
    (timer w s).nextRef = s.nextRef := by
  unfold timer
  cases s.waits[w]? with
  | none => exact ⟨rfl, rfl, rfl, rfl, rfl⟩
  | some wait =>
    simp only
    split
    · exact storeWait_frame _ _ _ _
    · exact ⟨rfl, rfl, rfl, rfl, rfl⟩

/-- A call leaves the tasks that exist as they are. -/
theorem call_tasks (s : State) (a : Action) (t : Nat) (ht : t < s.tasks.length)
    (ha : ∀ t' o, a ≠ .resume t' o) : (step s a).tasks[t]? = s.tasks[t]? := by
  cases a with
  | sendMessage c u =>
    simp only [step, sendMessage]
    split
    · simp [spawn, List.getElem?_append_left ht]
    · simp only [spawn, (ensureStream_frame c _).1]
      exact List.getElem?_append_left ht
  | sendShapeCommandAndWait c =>
    simp only [step, sendShapeCommandAndWait]
    split
    · simp [spawn, List.getElem?_append_left ht]
    · simp only [spawn, (ensureStream_frame c _).1]
      exact List.getElem?_append_left ht
  | ensureStream c =>
    simp only [step, ensureStreamCall, spawn, (ensureStream_frame c _).1]
    exact List.getElem?_append_left ht
  | resume t' o => exact absurd rfl (ha t' o)
  | emitSSE e => simp only [step, (emitSSE_frame e s).1]
  | timer w => simp only [step, (timer_frame w s).1]
  | page alive => rfl

theorem resume_tasks_ne (s : State) (t t' : Nat) (o : Outcome) (hne : t' ≠ t) :
    (resume t' o s).tasks[t]? = s.tasks[t]? := by
  unfold resume
  cases s.tasks[t']? with
  | none => rfl
  | some task =>
    obtain ⟨fn, c, pc⟩ := task
    cases pc with
    | ensuring ref =>
      cases fn <;> cases o <;>
        simp [ensureStreamReturn, safeEvaluateReturn, setPc, startWait, safeEvaluate,
          List.getElem?_modify_ne _ _ hne]
    | waiting w =>
      simp only
      cases s.waits[w]? with
      | none => rfl
      | some wait =>
        simp only
        cases wait.x.settled with
        | none => rfl
        | some v =>
          cases fn <;> simp [sendMessageExit, setPc, List.getElem?_modify_ne _ _ hne]
    | returned v => rfl
    | threw => rfl

/-! ### Claims on the lock -/

/-- C6: whenever a step completes a call of `sendMessage` that had acquired the lock (its task
was running before the step and has returned or thrown after it), `chatLocks` no longer holds
the conversation after that step, and a call of `sendMessage` on the same conversation made
then acquires the lock and goes on to `ensureStream`; the `finally` clause releases the lock
for a normal and for an abrupt completion alike. -/
theorem sendMessage_releases_lock (s : State) (a : Action) (t : Nat) (u : String)
    (c : ChatId) (pc : Pc) (task' : Task)
    (hrun : s.tasks[t]? = some ⟨.sendMessage u, c, pc⟩) (hact : pc.active = true)
    (hfin : (step s a).tasks[t]? = some task') (hdone : task'.pc.active = false) :
    c ∉ (step s a).chatLocks ∧
    (∀ u', ∃ r, (step (step s a) (.sendMessage c u')).tasks.getLast?
        = some ⟨.sendMessage u', c, .ensuring r⟩ ∧
      c ∈ (step (step s a) (.sendMessage c u')).chatLocks) ∧
    (∀ (completion : Completion (Option String)) (s0 : State) (t0 : Nat),
      c ∉ (sendMessageExit t0 c completion s0).chatLocks) := by
  have hexit : ∀ (completion : Completion (Option String)) (s0 : State) (t0 : Nat),
      c ∉ (sendMessageExit t0 c completion s0).chatLocks := by
    intro completion s0 t0
    simp [sendMessageExit, setPc]
  have hlt : t < s.tasks.length := by
    by_contra hge
    rw [List.getElem?_eq_none (by omega)] at hrun
    cases hrun
  have hfree : c ∉ (step s a).chatLocks := by
    by_cases hres : ∃ t' o, a = .resume t' o
    · obtain ⟨t', o, rfl⟩ := hres
      by_cases hne : t' = t
      · subst hne
        simp only [step] at hfin ⊢
        unfold resume at hfin ⊢
        rw [hrun] at hfin ⊢
        cases pc with
        | ensuring ref =>
          cases o <;>
            simp [ensureStreamReturn, safeEvaluateReturn, setPc, startWait, safeEvaluate,
              hlt] at hfin <;>
            · rw [← hfin] at hdone
              simp [Pc.active] at hdone
        | waiting w =>
          simp only at hfin ⊢
          cases hw : s.waits[w]? with
          | none =>
            rw [hw] at hfin
            simp only [hrun, Option.some.injEq] at hfin
            rw [← hfin] at hdone
            simp [Pc.active] at hdone
          | some wait =>
            rw [hw] at hfin
            simp only at hfin ⊢
            cases hv : wait.x.settled with
            | none =>
              rw [hv] at hfin
              simp only [hrun, Option.some.injEq] at hfin
              rw [← hfin] at hdone
              simp [Pc.active] at hdone
            | some v => exact hexit _ _ _
        | returned v => simp [Pc.active] at hact
        | threw => simp [Pc.active] at hact
      · simp only [step] at hfin
        rw [resume_tasks_ne s t t' o hne, hrun] at hfin
        simp only [Option.some.injEq] at hfin
        rw [← hfin] at hdone
        simp only at hdone
        rw [hact] at hdone
        cases hdone
    · rw [call_tasks s a t hlt (fun t' o h => hres ⟨t', o, h⟩), hrun] at hfin
      simp only [Option.some.injEq] at hfin
      rw [← hfin] at hdone
      simp only at hdone
      rw [hact] at hdone
      cases hdone
  refine ⟨hfree, ?_, hexit⟩
  intro u'
  generalize step s a = s1 at hfree
  refine ⟨(ensureStream c { s1 with chatLocks := s1.chatLocks ++ [c] }).2, ?_, ?_⟩
  · simp [step, sendMessage, hfree, spawn]
  · simp [step, sendMessage, hfree, spawn, (ensureStream_frame c _).2.2.1]

/-- C7: when the lock of the conversation is held, the call of `sendMessage` returns `null` at
once and changes nothing else in the relay: no entry, no listener, no wait, no call of
`safeEvaluate`, and the lock table is the same; the call that holds the lock still returns the
value its own wait was settled with. -/
theorem sendMessage_dropped_when_locked (s : State) (c : ChatId) (u : String)
    (hlocked : c ∈ s.chatLocks) :
    step s (.sendMessage c u)
      = { s with tasks := s.tasks ++ [⟨.sendMessage u, c, .returned (.text none)⟩] } ∧
    c ∈ (step s (.sendMessage c u)).chatLocks ∧
    (∀ (t : Nat) (u0 : String) (w : Nat) (wait : Wait) (v : Option String) (o : Outcome),
      s.tasks[t]? = some ⟨.sendMessage u0, c, .waiting w⟩ → s.waits[w]? = some wait →
      wait.x.settled = some v →
      (step (step s (.sendMessage c u)) (.resume t o)).tasks[t]?
        = some ⟨.sendMessage u0, c, .returned (.text v)⟩) := by
  have h1 : step s (.sendMessage c u)
      = { s with tasks := s.tasks ++ [⟨.sendMessage u, c, .returned (.text none)⟩] } := by
    simp [step, sendMessage, hlocked, spawn]
  refine ⟨h1, by rw [h1]; exact hlocked, ?_⟩
  intro t u0 w wait v o ht hw hv
  have hlt : t < s.tasks.length := by
    by_contra hge
    rw [List.getElem?_eq_none (by omega)] at ht
    cases ht
  rw [h1]
  simp only [step]
  unfold resume
  simp only [List.getElem?_append_left hlt, ht, hw, hv, sendMessageExit, setPc]
  simp [List.getElem?_append_left hlt, ht]

/-- C6 on the exchange of the example of the specification: the continuation that returns
`"Hi"` releases the lock of `"abc"`. -/
theorem sendMessage_releases_lock_witness :
    "abc" ∉ (step served (.resume 0 .fulfilled)).chatLocks ∧
    (∀ u', ∃ r, (step (step served (.resume 0 .fulfilled)) (.sendMessage "abc" u')).tasks.getLast?
        = some ⟨.sendMessage u', "abc", .ensuring r⟩ ∧
      "abc" ∈ (step (step served (.resume 0 .fulfilled)) (.sendMessage "abc" u')).chatLocks) ∧
    (∀ (completion : Completion (Option String)) (s0 : State) (t0 : Nat),
      "abc" ∉ (sendMessageExit t0 "abc" completion s0).chatLocks) :=
  sendMessage_releases_lock served (.resume 0 .fulfilled) 0 "u1" "abc" (.waiting 0)
    ⟨.sendMessage "u1", "abc", .returned (.text (some "Hi"))⟩
    (by decide) (by decide) (by decide) (by decide)

/-- C7 on the same exchange: a second call made before the first has returned gets `null`,
and the first call then returns `"Hi"`. -/
theorem sendMessage_dropped_when_locked_witness :
    step served (.sendMessage "abc" "u2")
      = { served with
          tasks := served.tasks ++ [⟨.sendMessage "u2", "abc", .returned (.text none)⟩] } ∧
    "abc" ∈ (step served (.sendMessage "abc" "u2")).chatLocks ∧
    (∀ (t : Nat) (u0 : String) (w : Nat) (wait : Wait) (v : Option String) (o : Outcome),
      served.tasks[t]? = some ⟨.sendMessage u0, "abc", .waiting w⟩ →
      served.waits[w]? = some wait → wait.x.settled = some v →
      (step (step served (.sendMessage "abc" "u2")) (.resume t o)).tasks[t]?
        = some ⟨.sendMessage u0, "abc", .returned (.text v)⟩) :=
  sendMessage_dropped_when_locked served "abc" "u2" (by decide)

/-! ### The registry grows and keeps its entries -/

theorem lookup_updateListeners (c k : ChatId) (f : List Nat → List Nat)
    (l : List (ChatId × Entry)) :
    (updateListeners c f l).lookup k
      = (l.lookup k).map (fun en =>
          if k = c then { en with listeners := f en.listeners } else en) := by
  induction l with
  | nil => rfl
  | cons p l ih =>
    obtain ⟨k', en⟩ := p
    have hhead : updateListeners c f ((k', en) :: l)
        = (k', if k' = c then { en with listeners := f en.listeners } else en)
          :: updateListeners c f l := by
      simp only [updateListeners, List.map_cons]
      split <;> rfl
    rw [hhead, List.lookup_cons, List.lookup_cons, ih]
    by_cases hk : k = k'
    · subst hk
      simp
    · have hb : (k == k') = false := by simpa using hk
      simp [hb]

theorem filter_key_updateListeners (c k : ChatId) (f : List Nat → List Nat)
    (l : List (ChatId × Entry)) :
    ((updateListeners c f l).filter (fun p => p.1 = k)).length
      = (l.filter (fun p => p.1 = k)).length := by
  induction l with
  | nil => rfl
  | cons p l ih =>
    obtain ⟨k', en⟩ := p
    have hhead : updateListeners c f ((k', en) :: l)
        = (k', if k' = c then { en with listeners := f en.listeners } else en)
          :: updateListeners c f l := by
      simp only [updateListeners, List.map_cons]
      split <;> rfl
    rw [hhead]
    by_cases hk : k' = k
    · simp [List.filter_cons, hk, ih]
    · simp [List.filter_cons, hk, ih]

theorem stable_refl (c : ChatId) (s : State) : Stable c s s :=
  ⟨rfl, rfl, rfl⟩

theorem stable_trans (c : ChatId) (s1 s2 s3 : State) (h12 : Stable c s1 s2)
    (h23 : Stable c s2 s3) : Stable c s1 s3 :=
  ⟨h23.1.trans h12.1, h23.2.1.trans h12.2.1, h23.2.2.trans h12.2.2⟩

/-- A state that differs by its listener sets only, and by calls of `safeEvaluate` that do
not open the event source of `c`. -/
theorem stable_of_eq (c : ChatId) (s s' : State)
    (hstreams : s'.streams = s.streams ∨
      ∃ k f, s'.streams = updateListeners k f s.streams)
    (hevals : s'.evals = s.evals ∨
      ∃ call, s'.evals = s.evals ++ [call] ∧ call.what ≠ .openStream c) :
    Stable c s s' := by
  refine ⟨?_, ?_, ?_⟩
  · rcases hstreams with h | ⟨k, f, h⟩
    · rw [h]
    · rw [h, lookup_updateListeners]
      cases s.streams.lookup c with
      | none => rfl
      | some en => by_cases hk : c = k <;> simp [hk]
  · rcases hevals with h | ⟨call, h, hne⟩
    · simp [opens, h]
    · simp [opens, h, List.filter_append, List.filter_cons, hne]
  · rcases hstreams with h | ⟨k, f, h⟩
    · simp [entries, h]
    · simp only [entries, h]
      exact filter_key_updateListeners k c f s.streams

theorem ensureStream_stable (c k : ChatId) (s : State)
    (h : k ≠ c ∨ s.streams.lookup c ≠ none) : Stable c s (ensureStream k s).1 := by
  unfold ensureStream
  cases hk : s.streams.lookup k with
  | some en => exact stable_refl c s
  | none =>
    have hne : k ≠ c := by
      rcases h with h | h
      · exact h
      · intro hkc
        rw [hkc] at hk
        exact h hk
    have hb : (c == k) = false := by simpa using (Ne.symm hne)
    refine ⟨?_, ?_, ?_⟩
    · simp [safeEvaluate, List.lookup_append, List.lookup_cons, hb]
    · simp [opens, safeEvaluate, List.filter_append, List.filter_cons, hne]
    · simp [entries, safeEvaluate, List.filter_append, List.filter_cons, hne]

theorem storeWait_stable (c : ChatId) (w : Nat) (wait : Wait) (x : Exchange) (s : State) :
    Stable c s (storeWait w wait x s) := by
  apply stable_of_eq
  · by_cases hx : x.subscribed = true
    · left; simp [storeWait, hx]
    · right
      exact ⟨wait.chatId, fun ls => ls.filter (fun k => k ≠ w), by simp [storeWait, hx]⟩
  · left; rfl

theorem forEachListener_stable (c : ChatId) (e : StreamEvent) (ws : List Nat) (s : State) :
    Stable c s (forEachListener e ws s) := by
  induction ws generalizing s with
  | nil => exact stable_refl c s
  | cons w ws ih =>
    have hi : Stable c s (invoke w e s).1 := by
      unfold invoke
      cases s.waits[w]? with
      | none => exact stable_refl c s
      | some wait => exact storeWait_stable c w wait _ s
    simp only [forEachListener]
    split
    · split
      · exact hi
      · exact stable_trans c _ _ _ hi (ih _)
    · exact ih s

theorem startWait_stable (c k : ChatId) (kind : Kind) (s : State) :
    Stable c s (startWait k kind s) := by
  apply stable_of_eq
  · right
    exact ⟨k, fun ls => ls ++ [s.waits.length], by simp [startWait, safeEvaluate]⟩
  · right
    refine ⟨_, by simp only [startWait, safeEvaluate]; rfl, ?_⟩
    cases kind <;> simp

theorem setPc_stable (c : ChatId) (t : Nat) (pc : Pc) (s s' : State) (h : Stable c s s') :
    Stable c s (setPc t pc s') :=
  h

/-- A step keeps the entry of a registered conversation, and opens no event source for it. -/
theorem step_stable (c : ChatId) (s : State) (a : Action)
    (hreg : s.streams.lookup c ≠ none) : Stable c s (step s a) := by
  cases a with
  | sendMessage k u =>
    simp only [step, sendMessage]
    split
    · exact stable_refl c s
    · exact ensureStream_stable c k { s with chatLocks := s.chatLocks ++ [k] } (Or.inr hreg)
  | sendShapeCommandAndWait k =>
    simp only [step, sendShapeCommandAndWait]
    split
    · exact stable_refl c s
    · exact ensureStream_stable c k s (Or.inr hreg)
  | ensureStream k => exact ensureStream_stable c k s (Or.inr hreg)
  | resume t o =>
    simp only [step]
    unfold resume
    cases s.tasks[t]? with
    | none => exact stable_refl c s
    | some task =>
      obtain ⟨fn, k, pc⟩ := task
      cases pc with
      | ensuring ref =>
        cases fn <;> cases o <;>
          simp only [ensureStreamReturn, safeEvaluateReturn] <;>
          first
            | exact stable_refl c s
            | exact setPc_stable c _ _ _ _ (startWait_stable c k _ s)
      | waiting w =>
        simp only
        cases s.waits[w]? with
        | none => exact stable_refl c s
        | some wait =>
          simp only
          cases wait.x.settled with
          | none => exact stable_refl c s
          | some v => cases fn <;> exact stable_refl c s
      | returned v => exact stable_refl c s
      | threw => exact stable_refl c s
  | emitSSE e =>
    simp only [step, emitSSE]
    cases s.streams.lookup e.chatId with
    | none => exact stable_refl c s
    | some entry => exact forEachListener_stable c e _ s
  | timer w =>
    simp only [step, timer]
    cases s.waits[w]? with
    | none => exact stable_refl c s
    | some wait =>
      simp only
      split
      · exact storeWait_stable c w wait _ s
      · exact stable_refl c s
  | page alive => exact stable_refl c s

theorem run_stable (c : ChatId) (actions : List Action) (s : State)
    (hreg : s.streams.lookup c ≠ none) : Stable c s (run s actions) := by
  induction actions generalizing s with
  | nil => exact stable_refl c s
  | cons a rest ih =>
    have h1 := step_stable c s a hreg
    have hreg' : (step s a).streams.lookup c ≠ none := by
      intro hnone
      have := h1.1
      rw [hnone] at this
      cases hs : s.streams.lookup c with
      | none => exact hreg hs
      | some en => rw [hs] at this; cases this
    exact stable_trans c _ _ _ h1 (ih (step s a) hreg')

theorem step_ensureStreamTask (s : State) (a : Action) (t : Nat) (c : ChatId) (r : Nat)
    (h : EnsureStreamTask s t c r) : EnsureStreamTask (step s a) t c r := by
  have hlt : t < s.tasks.length := by
    by_contra hge
    rcases h with h | h <;>
    · rw [List.getElem?_eq_none (by omega)] at h
      cases h
  by_cases hres : ∃ t' o, a = .resume t' o
  · obtain ⟨t', o, rfl⟩ := hres
    by_cases hne : t' = t
    · subst hne
      simp only [EnsureStreamTask, step]
      unfold resume
      rcases h with h | h
      · right
        cases o <;> simp [h, ensureStreamReturn, safeEvaluateReturn, setPc]
      · right
        simp [h]
    · simp only [EnsureStreamTask, step, resume_tasks_ne s t t' o hne]
      exact h
  · simp only [EnsureStreamTask, call_tasks s a t hlt (fun t' o h => hres ⟨t', o, h⟩)]
    exact h

theorem run_ensureStreamTask (actions : List Action) (s : State) (t : Nat) (c : ChatId)
    (r : Nat) (h : EnsureStreamTask s t c r) : EnsureStreamTask (run s actions) t c r := by
  induction actions generalizing s with
  | nil => exact h
  | cons a rest ih => exact ih (step s a) (step_ensureStreamTask s a t c r h)

theorem resume_ensureStreamTask (s : State) (t : Nat) (c : ChatId) (r : Nat) (o : Outcome)
    (h : EnsureStreamTask s t c r) :
    (step s (.resume t o)).tasks[t]? = some ⟨.ensureStream, c, .returned (.handle r)⟩ := by
  have hlt : t < s.tasks.length := by
    by_contra hge
    rcases h with h | h <;>
    · rw [List.getElem?_eq_none (by omega)] at h
      cases h
  simp only [step]
  unfold resume
  rcases h with h | h
  · cases o <;> simp [h, ensureStreamReturn, safeEvaluateReturn, setPc]
  · simp [h]

/-- The call of `ensureStream(c)` on a registered conversation: the relay is the same, and
the new task returns the registered entry. -/
theorem ensureStreamCall_registered (s : State) (c : ChatId) (en : Entry)
    (h : s.streams.lookup c = some en) :
    step s (.ensureStream c)
      = { s with tasks := s.tasks ++ [⟨.ensureStream, c, .ensuring en.ref⟩] } := by
  simp [step, ensureStreamCall, ensureStream, h, spawn]

/-- The call of `ensureStream(c)` on a conversation without entry: one entry with no
listener is registered and `safeEvaluate` is called once. -/
theorem ensureStreamCall_fresh (s : State) (c : ChatId) (h : s.streams.lookup c = none) :
    step s (.ensureStream c)
      = { s with
          streams := s.streams ++ [(c, ⟨s.nextRef, []⟩)]
          nextRef := s.nextRef + 1
          evals := s.evals ++ [⟨.openStream c, s.pageAlive⟩]
          tasks := s.tasks ++ [⟨.ensureStream, c, .ensuring s.nextRef⟩] } := by
  simp [step, ensureStreamCall, ensureStream, h, spawn, safeEvaluate]

theorem entries_of_lookup_none (s : State) (c : ChatId) (h : s.streams.lookup c = none) :
    entries s c = 0 := by
  unfold entries
  rw [List.length_eq_zero, List.filter_eq_nil_iff]
  intro p hp
  have hne := (List.lookup_eq_none_iff.mp h) p hp
  simp only [bne_iff_ne, ne_eq] at hne
  simp only [decide_eq_true_eq]
  exact fun heq => hne heq.symm

/-! ### Claims on `ensureStream` -/

/-- C9: from a relay where `c` has no entry, two calls of `ensureStream(c)` with any steps
between them (the continuation of the first call among them or not) make exactly one call of
`safeEvaluate` opening the event source of `c` and leave exactly one entry for `c`; the second
call changes neither the registry nor its listener sets, and both calls return the same
entry, the one that is registered. -/
theorem ensureStream_idempotent (s : State) (c : ChatId) (mid : List Action)
    (o1 o2 : Outcome) (hfresh : s.streams.lookup c = none) :
    opens (ensureStreamTwice s c mid) c = opens s c + 1 ∧
    entries (ensureStreamTwice s c mid) c = 1 ∧
    (ensureStreamTwice s c mid).streams = (run (step s (.ensureStream c)) mid).streams ∧
    (∀ k, listenersOf (ensureStreamTwice s c mid) k
        = listenersOf (run (step s (.ensureStream c)) mid) k) ∧
    (step (step (ensureStreamTwice s c mid) (.resume s.tasks.length o1))
        (.resume (run (step s (.ensureStream c)) mid).tasks.length o2)).tasks[s.tasks.length]?
      = some ⟨.ensureStream, c, .returned (.handle s.nextRef)⟩ ∧
    (step (step (ensureStreamTwice s c mid) (.resume s.tasks.length o1))
        (.resume (run (step s (.ensureStream c)) mid).tasks.length o2)).tasks[
          (run (step s (.ensureStream c)) mid).tasks.length]?
      = some ⟨.ensureStream, c, .returned (.handle s.nextRef)⟩ ∧
    ((ensureStreamTwice s c mid).streams.lookup c).map Entry.ref = some s.nextRef := by
  have h1 := ensureStreamCall_fresh s c hfresh
  have hreg1 : (step s (.ensureStream c)).streams.lookup c = some ⟨s.nextRef, []⟩ := by
    rw [h1]
    simp [List.lookup_append, hfresh]
  have hopens1 : opens (step s (.ensureStream c)) c = opens s c + 1 := by
    rw [h1]
    simp [opens, List.filter_append]
  have hentries1 : entries (step s (.ensureStream c)) c = 1 := by
    have h0 := entries_of_lookup_none s c hfresh
    rw [h1]
    simp only [entries, List.filter_append, List.length_append] at h0 ⊢
    simp [h0]
  have htask1 : EnsureStreamTask (step s (.ensureStream c)) s.tasks.length c s.nextRef := by
    left
    rw [h1]
    simp
  have hmid := run_stable c mid (step s (.ensureStream c)) (by rw [hreg1]; simp)
  obtain ⟨en, hen⟩ : ∃ en, (run (step s (.ensureStream c)) mid).streams.lookup c = some en := by
    have := hmid.1
    rw [hreg1] at this
    cases hl : (run (step s (.ensureStream c)) mid).streams.lookup c with
    | none => rw [hl] at this; cases this
    | some en => exact ⟨en, rfl⟩
  have href : en.ref = s.nextRef := by
    have := hmid.1
    rw [hreg1, hen] at this
    simpa using this
  have h2 := ensureStreamCall_registered _ c en hen
  have htask1' := run_ensureStreamTask mid _ _ c _ htask1
  have hlt : s.tasks.length < (run (step s (.ensureStream c)) mid).tasks.length := by
    by_contra hge
    rcases htask1' with h | h <;>
    · rw [List.getElem?_eq_none (by omega)] at h
      cases h
  have htwice : ensureStreamTwice s c mid
      = { run (step s (.ensureStream c)) mid with
          tasks := (run (step s (.ensureStream c)) mid).tasks
            ++ [⟨.ensureStream, c, .ensuring en.ref⟩] } := h2
  have ht1 : EnsureStreamTask (ensureStreamTwice s c mid) s.tasks.length c s.nextRef := by
    rw [htwice]
    rcases htask1' with h | h
    · left; simpa [List.getElem?_append_left hlt] using h
    · right; simpa [List.getElem?_append_left hlt] using h
  have ht2 : EnsureStreamTask (ensureStreamTwice s c mid)
      (run (step s (.ensureStream c)) mid).tasks.length c s.nextRef := by
    left
    rw [htwice, ← href]
    simp
  refine ⟨?_, ?_, ?_, ?_, ?_, ?_, ?_⟩
  · rw [htwice]
    exact hmid.2.1.trans hopens1
  · rw [htwice]
    exact hmid.2.2.trans hentries1
  · rw [htwice]
  · intro k
    rw [htwice]
    rfl
  · have hA := resume_ensureStreamTask _ _ c _ o1 ht1
    show (resume _ o2 (step (ensureStreamTwice s c mid) (.resume s.tasks.length o1))).tasks[
      s.tasks.length]? = _
    rw [resume_tasks_ne _ _ _ o2 (Nat.ne_of_gt hlt)]
    exact hA
  · exact resume_ensureStreamTask _ _ c _ o2
      (step_ensureStreamTask _ (.resume s.tasks.length o1) _ c _ ht2)
  · rw [htwice]
    simp [hen, href]

/-- C9 on the start-up relay, the first call being completed before the second is made. -/
theorem ensureStream_idempotent_witness :
    opens (ensureStreamTwice State.init "abc" [.resume 0 .fulfilled]) "abc"
      = opens State.init "abc" + 1 ∧
    entries (ensureStreamTwice State.init "abc" [.resume 0 .fulfilled]) "abc" = 1 ∧
    (ensureStreamTwice State.init "abc" [.resume 0 .fulfilled]).streams
      = (run (step State.init (.ensureStream "abc")) [.resume 0 .fulfilled]).streams ∧
    (∀ k, listenersOf (ensureStreamTwice State.init "abc" [.resume 0 .fulfilled]) k
        = listenersOf (run (step State.init (.ensureStream "abc")) [.resume 0 .fulfilled]) k) ∧
    (step (step (ensureStreamTwice State.init "abc" [.resume 0 .fulfilled])
          (.resume State.init.tasks.length .fulfilled))
        (.resume (run (step State.init (.ensureStream "abc"))
          [.resume 0 .fulfilled]).tasks.length .rejected)).tasks[State.init.tasks.length]?
      = some ⟨.ensureStream, "abc", .returned (.handle State.init.nextRef)⟩ ∧
    (step (step (ensureStreamTwice State.init "abc" [.resume 0 .fulfilled])
          (.resume State.init.tasks.length .fulfilled))
        (.resume (run (step State.init (.ensureStream "abc"))
          [.resume 0 .fulfilled]).tasks.length .rejected)).tasks[
          (run (step State.init (.ensureStream "abc")) [.resume 0 .fulfilled]).tasks.length]?
      = some ⟨.ensureStream, "abc", .returned (.handle State.init.nextRef)⟩ ∧
    ((ensureStreamTwice State.init "abc" [.resume 0 .fulfilled]).streams.lookup "abc").map
        Entry.ref = some State.init.nextRef :=
  ensureStream_idempotent State.init "abc" [.resume 0 .fulfilled] .fulfilled .rejected rfl

/-- C10 fails with the page closed and no entry for `"abc"`: after `ensureStream("abc")` the
registry holds an entry for `"abc"`, so the relay is not as it was before the call. -/
theorem ensureStream_unavailable_registers :
    pageDown.pageAlive = false ∧
    (ensureStreamDone pageDown "abc" .rejected).streams ≠ pageDown.streams ∧
    (ensureStreamDone pageDown "abc" .rejected).streams = [("abc", ⟨0, []⟩)] ∧
    pageDown.streams = [] := by
  decide

theorem modify_last (f : Task → Task) (l : List Task) (a : Task) :
    (l ++ [a]).modify f l.length = l ++ [f a] := by
  induction l with
  | nil => rfl
  | cons b l ih => simp [ih]

/-- C10 as amended: whatever the state of the page and the outcome of `page.evaluate`, so in
particular when `pageAlive()` is false or `page.evaluate` throws, `ensureStream(c)` returns
normally, with the entry registered for `c`; it leaves the locks, the waits and the page as
they were; when `c` has an entry, the registry and the calls of `safeEvaluate` are as they
were too; when `c` has none, the registry gains one entry for `c` with no listener, and
`safeEvaluate` has been called once, reaching `page.evaluate` only if the page is alive. -/
theorem ensureStream_unavailable_returns (s : State) (c : ChatId) (o : Outcome) :
    (∃ r, (ensureStreamDone s c o).tasks
        = s.tasks ++ [⟨.ensureStream, c, .returned (.handle r)⟩] ∧
      ((ensureStreamDone s c o).streams.lookup c).map Entry.ref = some r) ∧
    (ensureStreamDone s c o).chatLocks = s.chatLocks ∧
    (ensureStreamDone s c o).waits = s.waits ∧
    (ensureStreamDone s c o).pageAlive = s.pageAlive ∧
    (s.streams.lookup c ≠ none →
      (ensureStreamDone s c o).streams = s.streams ∧
      (ensureStreamDone s c o).evals = s.evals) ∧
    (s.streams.lookup c = none →
      (ensureStreamDone s c o).streams = s.streams ++ [(c, ⟨s.nextRef, []⟩)] ∧
      (ensureStreamDone s c o).evals = s.evals ++ [⟨.openStream c, s.pageAlive⟩]) := by
  have hresume : ∀ (s1 : State) (r : Nat),
      s1.tasks = s.tasks ++ [⟨.ensureStream, c, .ensuring r⟩] →
      resume s.tasks.length o s1
        = { s1 with tasks := s.tasks ++ [⟨.ensureStream, c, .returned (.handle r)⟩] } := by
    intro s1 r h1
    unfold resume
    cases o <;> simp [h1, ensureStreamReturn, safeEvaluateReturn, setPc, modify_last]
  cases hl : s.streams.lookup c with
  | some en =>
    have h1 := ensureStreamCall_registered s c en hl
    have h2 := hresume (step s (.ensureStream c)) en.ref (by rw [h1])
    simp only [ensureStreamDone, step] at h2 ⊢
    rw [h2]
    simp only [step] at h1
    rw [h1]
    simp [hl]
  | none =>
    have h1 := ensureStreamCall_fresh s c hl
    have h2 := hresume (step s (.ensureStream c)) s.nextRef (by rw [h1])
    simp only [ensureStreamDone, step] at h2 ⊢
    rw [h2]
    simp only [step] at h1
    rw [h1]
    simp [hl, List.lookup_append]

/-! ### Consistency is kept by every step -/

theorem getElem?_setPc (T : List Task) (t t' : Nat) (pc : Pc) :
    (T.modify (fun task => { task with pc := pc }) t)[t']?
      = (T[t']?).map (fun task => if t = t' then { task with pc := pc } else task) := by
  rw [List.getElem?_modify]
  rfl

theorem getElem?_lt (T : List Task) (t : Nat) (task : Task) (h : T[t]? = some task) :
    t < T.length := by
  by_contra hge
  rw [List.getElem?_eq_none (by omega)] at h
  cases h

theorem getElem?_spawn (T : List Task) (task task' : Task) (t : Nat)
    (h : (T ++ [task])[t]? = some task') :
    T[t]? = some task' ∨ (t = T.length ∧ task' = task) := by
  by_cases hlt : t < T.length
  · left
    rw [List.getElem?_append_left hlt] at h
    exact h
  · right
    have hlen := getElem?_lt _ _ _ h
    simp only [List.length_append, List.length_singleton] at hlen
    have ht : t = T.length := by omega
    subst ht
    rw [List.getElem?_concat_length] at h
    exact ⟨rfl, (Option.some.inj h).symm⟩

theorem consistent_spawn_other (L : ChatId → List Nat) (W : List Wait) (T : List Task)
    (K : List ChatId) (task : Task) (h : Consistent L W T K)
    (hother : ∀ u, task.fn = .sendMessage u → task.pc.active = false) :
    Consistent L W (T ++ [task]) K where
  lt := h.lt
  nodup := h.nodup
  fresh := h.fresh
  calls := h.calls
  owner := by
    intro c w wait u hw hwait hkind
    obtain ⟨t, u', ht⟩ := h.owner c w wait u hw hwait hkind
    exact ⟨t, u', by rw [List.getElem?_append_left (getElem?_lt _ _ _ ht)]; exact ht⟩
  locked := by
    intro t u c pc ht hpc
    rcases getElem?_spawn _ _ _ _ ht with ht | ⟨_, htask⟩
    · exact h.locked t u c pc ht hpc
    · have := hother u (by rw [← htask])
      rw [← htask] at this
      simp only at this
      rw [hpc] at this
      cases this
  unique := by
    intro t1 t2 u1 u2 c pc1 pc2 ht1 ht2 hpc1 hpc2
    rcases getElem?_spawn _ _ _ _ ht1 with ht1 | ⟨_, htask⟩
    · rcases getElem?_spawn _ _ _ _ ht2 with ht2 | ⟨_, htask⟩
      · exact h.unique t1 t2 u1 u2 c pc1 pc2 ht1 ht2 hpc1 hpc2
      · have := hother u2 (by rw [← htask])
        rw [← htask] at this
        simp only at this
        rw [hpc2] at this
        cases this
    · have := hother u1 (by rw [← htask])
      rw [← htask] at this
      simp only at this
      rw [hpc1] at this
      cases this

theorem consistent_spawn_sendMessage (L : ChatId → List Nat) (W : List Wait)
    (T : List Task) (K : List ChatId) (u : String) (c : ChatId) (pc : Pc)
    (h : Consistent L W T K) (hfree : c ∉ K) :
    Consistent L W (T ++ [⟨.sendMessage u, c, pc⟩]) (K ++ [c]) where
  lt := h.lt
  nodup := h.nodup
  fresh := h.fresh
  calls := h.calls
  owner := by
    intro c' w wait u' hw hwait hkind
    obtain ⟨t, u'', ht⟩ := h.owner c' w wait u' hw hwait hkind
    exact ⟨t, u'', by rw [List.getElem?_append_left (getElem?_lt _ _ _ ht)]; exact ht⟩
  locked := by
    intro t u' c' pc' ht hpc
    rcases getElem?_spawn _ _ _ _ ht with ht | ⟨_, htask⟩
    · exact List.mem_append_left _ (h.locked t u' c' pc' ht hpc)
    · have hc : c' = c := congrArg Task.chatId htask
      rw [hc]
      simp
  unique := by
    intro t1 t2 u1 u2 c' pc1 pc2 ht1 ht2 hpc1 hpc2
    rcases getElem?_spawn _ _ _ _ ht1 with ht1 | ⟨hl1, htask1⟩
    · rcases getElem?_spawn _ _ _ _ ht2 with ht2 | ⟨_, htask2⟩
      · exact h.unique t1 t2 u1 u2 c' pc1 pc2 ht1 ht2 hpc1 hpc2
      · have hc : c' = c := congrArg Task.chatId htask2
        rw [hc] at ht1
        exact absurd (h.locked t1 u1 c pc1 ht1 hpc1) hfree
    · rcases getElem?_spawn _ _ _ _ ht2 with ht2 | ⟨hl2, _⟩
      · have hc : c' = c := congrArg Task.chatId htask1
        rw [hc] at ht2
        exact absurd (h.locked t2 u2 c pc2 ht2 hpc2) hfree
      · rw [hl1, hl2]

theorem consistent_store (L : ChatId → List Nat) (W : List Wait) (T : List Task)
    (K : List ChatId) (w : Nat) (wait : Wait) (x' : Exchange) (h : Consistent L W T K)
    (hw : W[w]? = some wait) (hx : Guarded wait.x x') :
    Consistent
      (fun c => if x'.subscribed = true then L c
        else if c = wait.chatId then (L c).filter (fun k => k ≠ w) else L c)
      (W.set w { wait with x := x' }) T K := by
  have hmem : ∀ c k, k ∈ (if x'.subscribed = true then L c
        else if c = wait.chatId then (L c).filter (fun k => k ≠ w) else L c) → k ∈ L c := by
    intro c k hk
    split at hk
    · exact hk
    · split at hk
      · exact (List.mem_filter.mp hk).1
      · exact hk
  have hlook : ∀ k wait', (W.set w { wait with x := x' })[k]? = some wait' →
      (k = w ∧ wait' = { wait with x := x' }) ∨ (k ≠ w ∧ W[k]? = some wait') := by
    intro k wait' hk
    rw [List.getElem?_set] at hk
    by_cases hkw : w = k
    · left
      subst hkw
      simp only [if_true] at hk
      split at hk
      · exact ⟨rfl, (Option.some.inj hk).symm⟩
      · cases hk
    · right
      simp only [hkw, if_false] at hk
      exact ⟨fun hc => hkw hc.symm, hk⟩
  constructor
  · intro c k hk
    rw [List.length_set]
    exact h.lt c k (hmem c k hk)
  · intro c
    show (if x'.subscribed = true then L c
      else if c = wait.chatId then (L c).filter (fun k => k ≠ w) else L c).Nodup
    split
    · exact h.nodup c
    · split
      · exact (h.nodup c).filter _
      · exact h.nodup c
  · intro c k wait' hk hlk
    rcases hlook k wait' hlk with ⟨hkw, hwait'⟩ | ⟨_, hold⟩
    · subst hkw
      have hold := h.fresh c k wait (hmem c k hk) hw
      have hsub : x'.subscribed = true := by
        by_contra hns
        simp only [hns, if_false] at hk
        rw [if_pos hold.1.symm] at hk
        have := (List.mem_filter.mp hk).2
        simp at this
      rw [hwait']
      exact ⟨hold.1, hx.1 hold.2 hsub⟩
    · exact h.fresh c k wait' (hmem c k hk) hold
  · intro k wait' hlk hres
    rcases hlook k wait' hlk with ⟨hkw, hwait'⟩ | ⟨_, hold⟩
    · subst hkw
      rw [hwait'] at hres ⊢
      exact hx.2 (h.calls k wait hw) hres
    · exact h.calls k wait' hold hres
  · intro c k wait' u hk hlk hkind
    rcases hlook k wait' hlk with ⟨hkw, hwait'⟩ | ⟨_, hold⟩
    · subst hkw
      rw [hwait'] at hkind
      exact h.owner c k wait u (hmem c k hk) hw hkind
    · exact h.owner c k wait' u (hmem c k hk) hold hkind
  · exact h.locked
  · exact h.unique

theorem consistent_startWait (L : ChatId → List Nat) (W : List Wait) (T : List Task)
    (K : List ChatId) (t : Nat) (fn : Fn) (c : ChatId) (r : Nat) (kind : Kind)
    (registered : Bool) (h : Consistent L W T K) (ht : T[t]? = some ⟨fn, c, .ensuring r⟩)
    (hkind : ∀ u, kind = .message u → fn = .sendMessage u) :
    Consistent
      (fun k => if k = c ∧ registered = true then L k ++ [W.length] else L k)
      (W ++ [⟨c, kind, Exchange.init⟩])
      (T.modify (fun task => { task with pc := .waiting W.length }) t) K := by
  have hmem : ∀ k w, w ∈ (if k = c ∧ registered = true then L k ++ [W.length] else L k) →
      (w ∈ L k ∧ w < W.length) ∨ (w = W.length ∧ k = c) := by
    intro k w hw
    split at hw
    · rename_i hc
      rcases List.mem_append.mp hw with hw | hw
      · exact Or.inl ⟨hw, h.lt k w hw⟩
      · exact Or.inr ⟨List.mem_singleton.mp hw, hc.1⟩
    · exact Or.inl ⟨hw, h.lt k w hw⟩
  have htask : ∀ t' task', (T.modify (fun task => { task with pc := .waiting W.length }) t)[t']?
      = some task' →
      (t' ≠ t ∧ T[t']? = some task') ∨ (t' = t ∧ task' = ⟨fn, c, .waiting W.length⟩) := by
    intro t' task' h'
    rw [getElem?_setPc] at h'
    by_cases htt : t = t'
    · right
      subst htt
      rw [ht] at h'
      simp only [Option.map_some', if_true, Option.some.injEq] at h'
      exact ⟨rfl, h'.symm⟩
    · left
      cases hT : T[t']? with
      | none => rw [hT] at h'; cases h'
      | some task =>
        rw [hT] at h'
        simp only [Option.map_some', htt, if_false, Option.some.injEq] at h'
        exact ⟨fun hc => htt hc.symm, by rw [h']⟩
  constructor
  · intro k w hw
    rw [List.length_append, List.length_singleton]
    rcases hmem k w hw with ⟨_, hlt⟩ | ⟨heq, _⟩ <;> omega
  · intro k
    show (if k = c ∧ registered = true then L k ++ [W.length] else L k).Nodup
    split
    · refine List.Nodup.append (h.nodup k) (List.nodup_singleton _) ?_
      intro w hw hw'
      rw [List.mem_singleton] at hw'
      have := h.lt k w hw
      omega
    · exact h.nodup k
  · intro k w wait hw hlk
    rcases hmem k w hw with ⟨hold, hlt⟩ | ⟨heq, hk⟩
    · rw [List.getElem?_append_left hlt] at hlk
      exact h.fresh k w wait hold hlk
    · subst heq
      rw [List.getElem?_concat_length] at hlk
      have := Option.some.inj hlk
      rw [← this]
      exact ⟨hk.symm, rfl⟩
  · intro w wait hlk hres
    by_cases hlt : w < W.length
    · rw [List.getElem?_append_left hlt] at hlk
      exact h.calls w wait hlk hres
    · have hlen := List.getElem?_eq_some_iff.mp hlk
      obtain ⟨hlen, _⟩ := hlen
      simp only [List.length_append, List.length_singleton] at hlen
      have hw : w = W.length := by omega
      subst hw
      rw [List.getElem?_concat_length] at hlk
      rw [← Option.some.inj hlk]
      rfl
  · intro k w wait u hw hlk hk
    rcases hmem k w hw with ⟨hold, hlt⟩ | ⟨heq, hkc⟩
    · rw [List.getElem?_append_left hlt] at hlk
      obtain ⟨t', u', ht'⟩ := h.owner k w wait u hold hlk hk
      refine ⟨t', u', ?_⟩
      have hne : t ≠ t' := by
        intro heq
        subst heq
        rw [ht] at ht'
        cases ht'
      rw [List.getElem?_modify_ne _ _ hne]
      exact ht'
    · subst heq
      rw [List.getElem?_concat_length] at hlk
      have hwait := Option.some.inj hlk
      rw [← hwait] at hk
      simp only at hk
      have hfn := hkind u hk
      refine ⟨t, u, ?_⟩
      rw [getElem?_setPc, ht, hkc, hfn]
      simp
  · intro t' u k pc h' hpc
    rcases htask t' _ h' with ⟨_, hold⟩ | ⟨_, hnew⟩
    · exact h.locked t' u k pc hold hpc
    · have hfn : Fn.sendMessage u = fn := congrArg Task.fn hnew
      have hk : k = c := congrArg Task.chatId hnew
      rw [← hfn, ← hk] at ht
      exact h.locked t u k (.ensuring r) ht rfl
  · intro t1 t2 u1 u2 k pc1 pc2 h1 h2 hpc1 hpc2
    have key : ∀ (t' : Nat) (u : String) (pc : Pc),
        (T.modify (fun task => { task with pc := .waiting W.length }) t)[t']?
          = some (Task.mk (.sendMessage u) k pc) → pc.active = true →
        ∃ pc' : Pc, T[t']? = some (Task.mk (.sendMessage u) k pc') ∧ pc'.active = true := by
      intro t' u pc h' hpc
      rcases htask t' _ h' with ⟨_, hold⟩ | ⟨heq, hnew⟩
      · exact ⟨pc, hold, hpc⟩
      · have hfn : Fn.sendMessage u = fn := congrArg Task.fn hnew
        have hk : k = c := congrArg Task.chatId hnew
        rw [heq, hfn, hk]
        exact ⟨.ensuring r, ht, rfl⟩
    obtain ⟨pc1', ho1, ha1⟩ := key t1 u1 pc1 h1 hpc1
    obtain ⟨pc2', ho2, ha2⟩ := key t2 u2 pc2 h2 hpc2
    exact h.unique t1 t2 u1 u2 k pc1' pc2' ho1 ho2 ha1 ha2

theorem getElem?_setPc_cases (T : List Task) (t t' : Nat) (pc : Pc) (task' : Task)
    (h : (T.modify (fun task => { task with pc := pc }) t)[t']? = some task') :
    (t' ≠ t ∧ T[t']? = some task') ∨
    (t' = t ∧ ∃ task, T[t]? = some task ∧ task' = { task with pc := pc }) := by
  rw [getElem?_setPc] at h
  cases hT : T[t']? with
  | none => rw [hT] at h; cases h
  | some task =>
    rw [hT] at h
    by_cases htt : t = t'
    · right
      subst htt
      simp only [Option.map_some', if_true, Option.some.injEq] at h
      exact ⟨rfl, task, hT, h.symm⟩
    · left
      simp only [Option.map_some', htt, if_false, Option.some.injEq] at h
      exact ⟨fun hc => htt hc.symm, by rw [h]⟩

theorem consistent_exit (L : ChatId → List Nat) (W : List Wait) (T : List Task)
    (K : List ChatId) (t : Nat) (u : String) (c : ChatId) (pc pc' : Pc)
    (h : Consistent L W T K) (ht : T[t]? = some ⟨.sendMessage u, c, pc⟩)
    (hact : pc.active = true)
    (hsettled : ∀ w, pc = .waiting w → ∃ wait, W[w]? = some wait ∧ wait.x.resolveCalls ≠ [])
    (hdone : pc'.active = false) :
    Consistent L W (T.modify (fun task => { task with pc := pc' }) t)
      (K.filter (fun k => k ≠ c)) := by
  have hold : ∀ (t' : Nat) (u' : String) (k : ChatId) (q : Pc),
      (T.modify (fun task => { task with pc := pc' }) t)[t']?
        = some (Task.mk (.sendMessage u') k q) → q.active = true →
      t' ≠ t ∧ T[t']? = some (Task.mk (.sendMessage u') k q) := by
    intro t' u' k q h' hq
    rcases getElem?_setPc_cases T t t' pc' _ h' with hne | ⟨_, task, _, htask⟩
    · exact hne
    · have hpc : q = pc' := congrArg Task.pc htask
      rw [hpc, hdone] at hq
      cases hq
  constructor
  · exact h.lt
  · exact h.nodup
  · exact h.fresh
  · exact h.calls
  · intro k w wait u' hw hlk hkind
    obtain ⟨t', u'', ht'⟩ := h.owner k w wait u' hw hlk hkind
    refine ⟨t', u'', ?_⟩
    have hne : t ≠ t' := by
      intro heq
      subst heq
      rw [ht] at ht'
      have hpc : pc = .waiting w := congrArg Task.pc (Option.some.inj ht')
      obtain ⟨wait', hlk', hcalls⟩ := hsettled w hpc
      rw [hlk] at hlk'
      have hww := Option.some.inj hlk'
      subst hww
      exact hcalls (h.calls w wait hlk (h.fresh k w wait hw hlk).2)
    rw [List.getElem?_modify_ne _ _ hne]
    exact ht'
  · intro t' u' k q h' hq
    obtain ⟨hne, ho⟩ := hold t' u' k q h' hq
    have hk := h.locked t' u' k q ho hq
    refine List.mem_filter.mpr ⟨hk, ?_⟩
    simp only [ne_eq, decide_not, Bool.not_eq_true', decide_eq_false_iff_not]
    intro hkc
    subst hkc
    exact hne (h.unique t' t u' u k q pc ho ht hq hact)
  · intro t1 t2 u1 u2 k q1 q2 h1 h2 hq1 hq2
    obtain ⟨_, ho1⟩ := hold t1 u1 k q1 h1 hq1
    obtain ⟨_, ho2⟩ := hold t2 u2 k q2 h2 hq2
    exact h.unique t1 t2 u1 u2 k q1 q2 ho1 ho2 hq1 hq2

theorem consistent_setPc_other (L : ChatId → List Nat) (W : List Wait) (T : List Task)
    (K : List ChatId) (t : Nat) (task : Task) (pc' : Pc) (h : Consistent L W T K)
    (ht : T[t]? = some task) (hfn : ∀ u, task.fn ≠ .sendMessage u) :
    Consistent L W (T.modify (fun task => { task with pc := pc' }) t) K := by
  have hold : ∀ (t' : Nat) (u' : String) (k : ChatId) (q : Pc),
      (T.modify (fun task => { task with pc := pc' }) t)[t']?
        = some (Task.mk (.sendMessage u') k q) →
      t' ≠ t ∧ T[t']? = some (Task.mk (.sendMessage u') k q) := by
    intro t' u' k q h'
    rcases getElem?_setPc_cases T t t' pc' _ h' with hne | ⟨_, task0, htask0, htask⟩
    · exact hne
    · rw [ht] at htask0
      have h0 := Option.some.inj htask0
      subst h0
      have : Fn.sendMessage u' = task.fn := congrArg Task.fn htask
      exact absurd this.symm (hfn u')
  constructor
  · exact h.lt
  · exact h.nodup
  · exact h.fresh
  · exact h.calls
  · intro k w wait u' hw hlk hkind
    obtain ⟨t', u'', ht'⟩ := h.owner k w wait u' hw hlk hkind
    refine ⟨t', u'', ?_⟩
    have hne : t ≠ t' := by
      intro heq
      subst heq
      rw [ht] at ht'
      have h0 := Option.some.inj ht'
      subst h0
      exact hfn u'' rfl
    rw [List.getElem?_modify_ne _ _ hne]
    exact ht'
  · intro t' u' k q h' hq
    exact h.locked t' u' k q (hold t' u' k q h').2 hq
  · intro t1 t2 u1 u2 k q1 q2 h1 h2 hq1 hq2
    exact h.unique t1 t2 u1 u2 k q1 q2 (hold t1 u1 k q1 h1).2 (hold t2 u2 k q2 h2).2 hq1 hq2

/-! ### The callbacks are guarded -/

theorem guarded_refl (x : Exchange) : Guarded x x :=
  ⟨fun h _ => h, fun h h' => h h'⟩

theorem guarded_accept (sep : String) (x : Exchange) (e : StreamEvent) :
    Guarded x (accept sep x e).1 := by
  unfold accept
  cases e.message.bind (replyText sep) <;> exact ⟨fun _ h => (by simp at h), fun _ h => (by simp at h)⟩

theorem guarded_sendMessageListener (u : String) (x : Exchange) (e : StreamEvent) :
    Guarded x (sendMessageListener u x e).1 := by
  unfold sendMessageListener
  split
  · exact guarded_refl x
  · split
    · exact ⟨fun h _ => h, fun h h' => h h'⟩
    · split
      · exact guarded_accept _ x e
      · exact guarded_refl x

theorem guarded_commandListener (x : Exchange) (e : StreamEvent) :
    Guarded x (commandListener x e).1 := by
  unfold commandListener
  split
  · exact guarded_refl x
  · split
    · exact guarded_accept _ x e
    · exact guarded_refl x

theorem guarded_listener (wait : Wait) (e : StreamEvent) :
    Guarded wait.x (wait.listener e).1 := by
  unfold Wait.listener
  cases wait.kind with
  | message u => exact guarded_sendMessageListener u wait.x e
  | command => exact guarded_commandListener wait.x e

theorem guarded_fireTimer (x : Exchange) : Guarded x (fireTimer x) := by
  unfold fireTimer timeoutCallback
  split
  · split
    · exact ⟨fun h _ => h, fun h h' => h h'⟩
    · exact ⟨fun _ h => (by simp at h), fun _ h => (by simp at h)⟩
  · exact guarded_refl x

/-! ### Listener sets after each operation -/

theorem consistent_of_eq (s : State) (L : ChatId → List Nat) (W : List Wait) (T : List Task)
    (K : List ChatId) (hL : ∀ c, listenersOf s c = L c) (hW : s.waits = W) (hT : s.tasks = T)
    (hK : s.chatLocks = K) (h : Consistent L W T K) : s.consistent := by
  have hL' : listenersOf s = L := funext hL
  unfold State.consistent
  rw [hL', hW, hT, hK]
  exact h

theorem listenersOf_ensureStream (k c : ChatId) (s : State) :
    listenersOf (ensureStream k s).1 c = listenersOf s c := by
  unfold ensureStream
  cases hk : s.streams.lookup k with
  | some en => rfl
  | none =>
    simp only [listenersOf, safeEvaluate, List.lookup_append]
    cases hc : s.streams.lookup c with
    | some en => rfl
    | none =>
      by_cases hck : c = k
      · simp [List.lookup_cons, hck]
      · have hb : (c == k) = false := by simpa using hck
        simp [List.lookup_cons, hb]

theorem listenersOf_startWait (k c : ChatId) (kind : Kind) (s : State) :
    listenersOf (startWait k kind s) c
      = if c = k ∧ (s.streams.lookup k).isSome = true then listenersOf s c ++ [s.waits.length]
        else listenersOf s c := by
  simp only [listenersOf, startWait, safeEvaluate, lookup_updateListeners]
  by_cases hck : c = k
  · subst hck
    cases s.streams.lookup c <;> simp
  · cases s.streams.lookup c <;> simp [hck]

theorem listenersOf_storeWait (w : Nat) (wait : Wait) (x : Exchange) (c : ChatId)
    (s : State) :
    listenersOf (storeWait w wait x s) c
      = if x.subscribed = true then listenersOf s c
        else if c = wait.chatId then (listenersOf s c).filter (fun k => k ≠ w)
        else listenersOf s c := by
  by_cases hx : x.subscribed = true
  · simp [listenersOf, storeWait, hx]
  · simp only [listenersOf, storeWait, hx, if_false, lookup_updateListeners, Bool.false_eq_true]
    by_cases hck : c = wait.chatId
    · cases s.streams.lookup c <;> simp [hck]
    · cases s.streams.lookup c <;> simp [hck]

theorem consistent_storeWait (s : State) (w : Nat) (wait : Wait) (x : Exchange)
    (h : s.consistent) (hw : s.waits[w]? = some wait) (hx : Guarded wait.x x) :
    (storeWait w wait x s).consistent :=
  consistent_of_eq _ _ _ _ _ (fun c => listenersOf_storeWait w wait x c s) rfl rfl rfl
    (consistent_store _ _ _ _ w wait x h hw hx)

theorem consistent_invoke (s : State) (w : Nat) (e : StreamEvent) (h : s.consistent) :
    (invoke w e s).1.consistent := by
  unfold invoke
  cases hw : s.waits[w]? with
  | none => exact h
  | some wait => exact consistent_storeWait s w wait _ h hw (guarded_listener wait e)

theorem consistent_forEachListener (e : StreamEvent) (ws : List Nat) (s : State)
    (h : s.consistent) : (forEachListener e ws s).consistent := by
  induction ws generalizing s with
  | nil => exact h
  | cons w ws ih =>
    simp only [forEachListener]
    split
    · split
      · exact consistent_invoke s w e h
      · exact ih _ (consistent_invoke s w e h)
    · exact ih s h

theorem consistent_resume (s : State) (t : Nat) (o : Outcome) (h : s.consistent) :
    (resume t o s).consistent := by
  unfold resume
  cases ht : s.tasks[t]? with
  | none => exact h
  | some task =>
    obtain ⟨fn, c, pc⟩ := task
    cases pc with
    | ensuring ref =>
      have hstart : ∀ kind : Kind, (∀ u, kind = .message u → fn = .sendMessage u) →
          (setPc t (.waiting s.waits.length) (startWait c kind s)).consistent := by
        intro kind hkind
        exact consistent_of_eq _ _ _ _ _ (fun k => listenersOf_startWait c k kind s) rfl rfl rfl
          (consistent_startWait _ _ _ _ t fn c ref kind (s.streams.lookup c).isSome h ht hkind)
      cases fn with
      | ensureStream =>
        cases o <;>
          exact consistent_setPc_other _ _ _ _ t _ _ h ht (fun u hu => by cases hu)
      | sendMessage u =>
        cases o <;> exact hstart (.message u) (fun u' hu' => by cases hu'; rfl)
      | sendShapeCommandAndWait =>
        cases o <;> exact hstart .command (fun u' hu' => by cases hu')
    | waiting w =>
      simp only
      cases hw : s.waits[w]? with
      | none => exact h
      | some wait =>
        simp only
        cases hv : wait.x.settled with
        | none => exact h
        | some v =>
          cases fn with
          | sendMessage u =>
            refine consistent_exit _ _ _ _ t u c (.waiting w) _ h ht rfl ?_ rfl
            intro w' hw'
            cases hw'
            refine ⟨wait, hw, ?_⟩
            intro hnil
            simp [Exchange.settled, hnil] at hv
          | ensureStream =>
            exact consistent_setPc_other _ _ _ _ t _ _ h ht (fun u hu => by cases hu)
          | sendShapeCommandAndWait =>
            exact consistent_setPc_other _ _ _ _ t _ _ h ht (fun u hu => by cases hu)
    | returned v => exact h
    | threw => exact h

/-- Every step of the relay keeps the state consistent. -/
theorem consistent_step (s : State) (a : Action) (h : s.consistent) :
    (step s a).consistent := by
  cases a with
  | sendMessage c u =>
    simp only [step, sendMessage]
    split
    · exact consistent_spawn_other _ _ _ _ _ h (fun _ _ => rfl)
    · rename_i hfree
      refine consistent_of_eq _ (listenersOf s) s.waits
        (s.tasks ++ [⟨.sendMessage u, c,
          .ensuring (ensureStream c { s with chatLocks := s.chatLocks ++ [c] }).2⟩])
        (s.chatLocks ++ [c]) ?_ ?_ ?_ ?_
        (consistent_spawn_sendMessage _ _ _ _ u c _ h hfree)
      · exact fun k => listenersOf_ensureStream c k _
      · exact (ensureStream_frame c _).2.1
      · simp only [spawn, (ensureStream_frame c _).1]
      · exact (ensureStream_frame c _).2.2.1
  | sendShapeCommandAndWait c =>
    simp only [step, sendShapeCommandAndWait]
    split
    · exact consistent_spawn_other _ _ _ _ _ h (fun _ hu => by cases hu)
    · refine consistent_of_eq _ (listenersOf s) s.waits
        (s.tasks ++ [⟨.sendShapeCommandAndWait, c, .ensuring (ensureStream c s).2⟩])
        s.chatLocks ?_ ?_ ?_ ?_
        (consistent_spawn_other _ _ _ _ _ h (fun _ hu => by cases hu))
      · exact fun k => listenersOf_ensureStream c k _
      · exact (ensureStream_frame c _).2.1
      · simp only [spawn, (ensureStream_frame c _).1]
      · exact (ensureStream_frame c _).2.2.1
  | ensureStream c =>
    simp only [step, ensureStreamCall]
    refine consistent_of_eq _ (listenersOf s) s.waits
      (s.tasks ++ [⟨.ensureStream, c, .ensuring (ensureStream c s).2⟩]) s.chatLocks ?_ ?_ ?_ ?_
      (consistent_spawn_other _ _ _ _ _ h (fun _ hu => by cases hu))
    · exact fun k => listenersOf_ensureStream c k _
    · exact (ensureStream_frame c _).2.1
    · simp only [spawn, (ensureStream_frame c _).1]
    · exact (ensureStream_frame c _).2.2.1
  | resume t o => exact consistent_resume s t o h
  | emitSSE e =>
    simp only [step, emitSSE]
    cases s.streams.lookup e.chatId with
    | none => exact h
    | some entry => exact consistent_forEachListener e _ s h
  | timer w =>
    simp only [step, timer]
    cases hw : s.waits[w]? with
    | none => exact h
    | some wait =>
      simp only
      split
      · exact consistent_storeWait s w wait _ h hw (guarded_fireTimer wait.x)
      · exact h
  | page alive => exact h

theorem consistent_init : State.init.consistent where
  lt := by intro c w hw; cases hw
  nodup := by intro c; exact List.nodup_nil
  fresh := by intro c w wait hw; cases hw
  calls := by intro w wait hw; cases hw
  owner := by intro c w wait u hw; cases hw
  locked := by intro t u c pc ht; cases ht
  unique := by intro t1 t2 u1 u2 c pc1 pc2 ht; cases ht

theorem consistent_run (actions : List Action) (s : State) (h : s.consistent) :
    (run s actions).consistent := by
  induction actions generalizing s with
  | nil => exact h
  | cons a rest ih => exact ih (step s a) (consistent_step s a h)

/-! ### Claim on single settlement -/

/-- C5: over any sequence of events and runs of the timer callback, `resolve` is called at
most once; once the promise is settled, the listener is unsubscribed, and every later event
and every later firing of the timer leave the whole closure, the settled value included,
as it is, whether the callbacks are run directly or through the dispatcher and the timer;
and in every state of the relay reached from start-up, a wait whose promise is settled is
in the listener set of no conversation. -/
theorem sendMessage_settles_once (u : String) (signals : List Signal) :
    (waitAfter u signals).resolveCalls.length ≤ 1 ∧
    ((waitAfter u signals).settled ≠ none →
      (waitAfter u signals).subscribed = false ∧
      ∀ sig : Signal,
        react u (waitAfter u signals) sig = waitAfter u signals ∧
        drive u (waitAfter u signals) sig = waitAfter u signals) ∧
    (∀ (actions : List Action) (w : Nat) (wait : Wait) (c : ChatId),
      (run State.init actions).waits[w]? = some wait → wait.x.settled ≠ none →
      w ∉ listenersOf (run State.init actions) c) := by
  have hglobal : ∀ (actions : List Action) (w : Nat) (wait : Wait) (c : ChatId),
      (run State.init actions).waits[w]? = some wait → wait.x.settled ≠ none →
      w ∉ listenersOf (run State.init actions) c := by
    intro actions w wait c hlk hset hmem
    have hc := consistent_run actions State.init consistent_init
    have hcalls := hc.calls w wait hlk (hc.fresh c w wait hmem hlk).2
    exact hset (by simp [Exchange.settled, hcalls])
  rcases settledOnce_waitAfter u signals with h | ⟨hres, hsub, htimer, v, hv⟩
  · refine ⟨by simp [h], fun hset => ?_, hglobal⟩
    simp [Exchange.settled, h] at hset
  · exact ⟨by simp [hv], fun _ => ⟨hsub, fun sig => resolved_fixed u _ sig hres htimer⟩,
      hglobal⟩

/-- C5 on the example of the specification: after the echo and the reply the promise is
settled once, and nothing changes it any more. -/
theorem sendMessage_settles_once_witness :
    (waitAfter "u1" [.event echoU1, .event replyHi]).resolveCalls.length ≤ 1 ∧
    ((waitAfter "u1" [.event echoU1, .event replyHi]).settled ≠ none →
      (waitAfter "u1" [.event echoU1, .event replyHi]).subscribed = false ∧
      ∀ sig : Signal,
        react "u1" (waitAfter "u1" [.event echoU1, .event replyHi]) sig
          = waitAfter "u1" [.event echoU1, .event replyHi] ∧
        drive "u1" (waitAfter "u1" [.event echoU1, .event replyHi]) sig
          = waitAfter "u1" [.event echoU1, .event replyHi]) ∧
    (∀ (actions : List Action) (w : Nat) (wait : Wait) (c : ChatId),
      (run State.init actions).waits[w]? = some wait → wait.x.settled ≠ none →
      w ∉ listenersOf (run State.init actions) c) :=
  sendMessage_settles_once "u1" [.event echoU1, .event replyHi]

/-! ### A task inside `ensureStream` has an entry -/

theorem registered_of_stable (c : ChatId) (s s' : State) (h : Stable c s s')
    (hreg : s.streams.lookup c ≠ none) : s'.streams.lookup c ≠ none := by
  intro hnone
  have := h.1
  rw [hnone] at this
  cases hs : s.streams.lookup c with
  | none => exact hreg hs
  | some en => rw [hs] at this; cases this

theorem lookup_ensureStream_self (k : ChatId) (s : State) :
    (ensureStream k s).1.streams.lookup k ≠ none := by
  unfold ensureStream
  cases hk : s.streams.lookup k with
  | some en => simp [hk]
  | none => simp [safeEvaluate, List.lookup_append, hk]

theorem resume_ensuring_old (s : State) (t0 t : Nat) (o : Outcome) (task : Task) (ref : Nat)
    (h : (resume t0 o s).tasks[t]? = some task) (hpc : task.pc = .ensuring ref) :
    s.tasks[t]? = some task := by
  by_cases hne : t0 = t
  · subst hne
    exfalso
    have key : ∀ (s1 : State) (pc' : Pc), s1.tasks = s.tasks → (∀ r, pc' ≠ .ensuring r) →
        (setPc t0 pc' s1).tasks[t0]? = some task → False := by
      intro s1 pc' hs1 hpc' h'
      simp only [setPc, hs1] at h'
      rcases getElem?_setPc_cases _ _ _ _ _ h' with ⟨hne, _⟩ | ⟨_, task0, _, htask⟩
      · exact hne rfl
      · rw [htask] at hpc
        exact hpc' ref hpc
    unfold resume at h
    cases ht : s.tasks[t0]? with
    | none =>
      rw [ht] at h
      simp only at h
      rw [ht] at h
      cases h
    | some task0 =>
      obtain ⟨fn, c, pc⟩ := task0
      rw [ht] at h
      cases pc with
      | ensuring r =>
        cases fn <;> cases o <;>
          exact key _ _ (by simp [startWait, safeEvaluate]) (fun r hr => by cases hr) h
      | waiting w =>
        simp only at h
        cases hw : s.waits[w]? with
        | none =>
          rw [hw] at h
          simp only at h
          rw [ht] at h
          rw [← Option.some.inj h] at hpc
          cases hpc
        | some wait =>
          rw [hw] at h
          simp only at h
          cases hv : wait.x.settled with
          | none =>
            rw [hv] at h
            simp only at h
            rw [ht] at h
            rw [← Option.some.inj h] at hpc
            cases hpc
          | some v =>
            rw [hv] at h
            cases fn <;>
              exact key _ _ (by simp [sendMessageExit]) (fun r hr => by cases hr) h
      | returned v =>
        simp only at h
        rw [ht] at h
        rw [← Option.some.inj h] at hpc
        cases hpc
      | threw =>
        simp only at h
        rw [ht] at h
        rw [← Option.some.inj h] at hpc
        cases hpc
  · rw [resume_tasks_ne s t t0 o hne] at h
    exact h

theorem ensuringRegistered_call (s s0 : State) (k : ChatId) (fn : Fn)
    (h : s.ensuringRegistered) (hstreams : s0.streams = s.streams)
    (htasks : s0.tasks = s.tasks) :
    (spawn ⟨fn, k, .ensuring (ensureStream k s0).2⟩ (ensureStream k s0).1).ensuringRegistered := by
  intro t task ref ht hpc
  simp only [spawn, (ensureStream_frame k s0).1, htasks] at ht
  show (ensureStream k s0).1.streams.lookup task.chatId ≠ none
  rcases getElem?_spawn _ _ _ _ ht with hold | ⟨_, hnew⟩
  · have hreg := h t task ref hold hpc
    rw [← hstreams] at hreg
    exact registered_of_stable _ _ _ (ensureStream_stable task.chatId k s0 (Or.inr hreg)) hreg
  · rw [hnew]
    exact lookup_ensureStream_self k s0

theorem ensuringRegistered_step (s : State) (a : Action) (h : s.ensuringRegistered) :
    (step s a).ensuringRegistered := by
  cases a with
  | sendMessage c u =>
    simp only [step, sendMessage]
    split
    · intro t task ref ht hpc
      rcases getElem?_spawn _ _ _ _ ht with hold | ⟨_, hnew⟩
      · exact h t task ref hold hpc
      · rw [hnew] at hpc
        cases hpc
    · exact ensuringRegistered_call s _ c _ h rfl rfl
  | sendShapeCommandAndWait c =>
    simp only [step, sendShapeCommandAndWait]
    split
    · intro t task ref ht hpc
      rcases getElem?_spawn _ _ _ _ ht with hold | ⟨_, hnew⟩
      · exact h t task ref hold hpc
      · rw [hnew] at hpc
        cases hpc
    · exact ensuringRegistered_call s s c _ h rfl rfl
  | ensureStream c => exact ensuringRegistered_call s s c _ h rfl rfl
  | resume t0 o =>
    intro t task ref ht hpc
    have hold := resume_ensuring_old s t0 t o task ref ht hpc
    have hreg := h t task ref hold hpc
    exact registered_of_stable _ _ _ (step_stable task.chatId s (.resume t0 o) hreg) hreg
  | emitSSE e =>
    intro t task ref ht hpc
    simp only [step, (emitSSE_frame e s).1] at ht
    have hreg := h t task ref ht hpc
    exact registered_of_stable _ _ _ (step_stable task.chatId s (.emitSSE e) hreg) hreg
  | timer w =>
    intro t task ref ht hpc
    simp only [step, (timer_frame w s).1] at ht
    have hreg := h t task ref ht hpc
    exact registered_of_stable _ _ _ (step_stable task.chatId s (.timer w) hreg) hreg
  | page alive => exact h

/-- In every state reached from start-up, a task inside `ensureStream` has an entry for its
conversation: the executor of `new Promise` always finds `streams.get(chatId)`. -/
theorem ensuring_registered (actions : List Action) :
    (run State.init actions).ensuringRegistered := by
  have key : ∀ s : State, s.ensuringRegistered → (run s actions).ensuringRegistered := by
    induction actions with
    | nil => exact fun s h => h
    | cons a rest ih => exact fun s h => ih (step s a) (ensuringRegistered_step s a h)
  exact key State.init (by intro t task ref ht; cases ht)

/-! ### Claims on the number of waits -/

/-- C8 fails as stated: two calls of `sendShapeCommandAndWait` on one conversation, or a call
of `sendMessage` and a call of `sendShapeCommandAndWait`, leave two listeners that are not
settled registered on that conversation, since `sendShapeCommandAndWait` takes no lock. -/
theorem two_unsettled_listeners :
    (unsettledListeners twoCommands "abc").length = 2 ∧
    (unsettledListeners messageAndCommand "abc").length = 2 := by
  decide

/-- C8 as amended: in every state reached from start-up by any sequence of steps, at most one
listener of `sendMessage` that is not settled is registered on any one conversation. -/
theorem sendMessage_waits_at_most_one (actions : List Action) (c : ChatId) :
    (unsettledMessageListeners (run State.init actions) c).length ≤ 1 := by
  have h := consistent_run actions State.init consistent_init
  generalize run State.init actions = s at h
  have hnodup : (unsettledMessageListeners s c).Nodup := (h.nodup c).filter _
  have hsame : ∀ w1 ∈ unsettledMessageListeners s c, ∀ w2 ∈ unsettledMessageListeners s c,
      w1 = w2 := by
    have hown : ∀ w ∈ unsettledMessageListeners s c,
        ∃ (t : Nat) (u : String), s.tasks[t]? = some (Task.mk (.sendMessage u) c (.waiting w)) := by
      intro w hw
      obtain ⟨hreg, hp⟩ := List.mem_filter.mp hw
      cases hlk : s.waits[w]? with
      | none => simp [hlk] at hp
      | some wait =>
        obtain ⟨k, kind, x⟩ := wait
        cases kind with
        | command => simp [hlk] at hp
        | message u => exact h.owner c w _ u hreg hlk rfl
    intro w1 hw1 w2 hw2
    obtain ⟨t1, u1, ht1⟩ := hown w1 hw1
    obtain ⟨t2, u2, ht2⟩ := hown w2 hw2
    have ht := h.unique t1 t2 u1 u2 c _ _ ht1 ht2 rfl rfl
    subst ht
    rw [ht1] at ht2
    have hpc : Pc.waiting w1 = Pc.waiting w2 := congrArg Task.pc (Option.some.inj ht2)
    exact Pc.waiting.inj hpc
  generalize unsettledMessageListeners s c = l at hnodup hsame
  match l, hnodup, hsame with
  | [], _, _ => simp
  | [_], _, _ => simp
  | a :: b :: rest, hnodup, hsame =>
    have hab : a = b := hsame a (by simp) b (by simp)
    subst hab
    simp at hnodup

/-! ### The dispatcher -/

theorem forEachCalls_fst (e : StreamEvent) (ws : List Nat) (s : State) :
    (forEachCalls e ws s).1 = forEachListener e ws s := by
  induction ws generalizing s with
  | nil => rfl
  | cons w ws ih =>
    simp only [forEachCalls, forEachListener]
    split
    · split
      · rfl
      · exact ih _
    · exact ih s

theorem emitSSECalls_fst (e : StreamEvent) (s : State) :
    (emitSSECalls e s).1 = emitSSE e s := by
  unfold emitSSECalls emitSSE
  cases s.streams.lookup e.chatId with
  | none => rfl
  | some entry => exact forEachCalls_fst e _ s

theorem invoke_throws (w : Nat) (e : StreamEvent) (s : State) :
    (invoke w e s).2 = throwsOn s e w := by
  unfold invoke throwsOn
  cases s.waits[w]? <;> rfl

theorem invoke_waits_ne (w w' : Nat) (e : StreamEvent) (s : State) (hne : w ≠ w') :
    (invoke w e s).1.waits[w']? = s.waits[w']? := by
  unfold invoke
  cases s.waits[w]? with
  | none => rfl
  | some wait => simp [storeWait, List.getElem?_set_ne hne]

theorem invoke_waits_self (w : Nat) (e : StreamEvent) (s : State) (wait : Wait)
    (h : s.waits[w]? = some wait) :
    (invoke w e s).1.waits[w]? = some { wait with x := (wait.listener e).1 } := by
  have hlt : w < s.waits.length := by
    by_contra hge
    rw [List.getElem?_eq_none (by omega)] at h
    cases h
  unfold invoke
  rw [h]
  simp [storeWait, List.getElem?_set, hlt]

theorem mem_listenersOf_invoke (w w' : Nat) (e : StreamEvent) (s : State) (c : ChatId)
    (hne : w' ≠ w) (h : w' ∈ listenersOf s c) : w' ∈ listenersOf (invoke w e s).1 c := by
  unfold invoke
  cases s.waits[w]? with
  | none => exact h
  | some wait =>
    simp only
    rw [listenersOf_storeWait]
    split
    · exact h
    · split
      · exact List.mem_filter.mpr ⟨h, by simpa using hne⟩
      · exact h

/-- The loop over listeners that are registered, distinct and do not throw calls each of them
once, in order, and leaves in each wait the closure its listener returns. -/
theorem forEachCalls_quiet (e : StreamEvent) (ws : List Nat) (s : State) (hnodup : ws.Nodup)
    (hreg : ∀ w ∈ ws, w ∈ listenersOf s e.chatId)
    (hquiet : ∀ w ∈ ws, throwsOn s e w = false) :
    (forEachCalls e ws s).2 = ws ∧
    ∀ (w : Nat) (wait : Wait), s.waits[w]? = some wait →
      (forEachCalls e ws s).1.waits[w]?
        = some (if w ∈ ws then { wait with x := (wait.listener e).1 } else wait) := by
  induction ws generalizing s with
  | nil =>
    refine ⟨rfl, ?_⟩
    intro w wait h
    simpa [forEachCalls] using h
  | cons w ws ih =>
    have hw : w ∈ listenersOf s e.chatId := hreg w (List.mem_cons_self _ _)
    have hq : (invoke w e s).2 = false := by
      rw [invoke_throws]
      exact hquiet w (List.mem_cons_self _ _)
    have hnotin : w ∉ ws := (List.nodup_cons.mp hnodup).1
    have hne : ∀ w' ∈ ws, w' ≠ w := fun w' hw' heq => hnotin (heq ▸ hw')
    obtain ⟨hcalls, hwaits⟩ := ih (invoke w e s).1 (List.nodup_cons.mp hnodup).2
      (fun w' hw' => mem_listenersOf_invoke w w' e s e.chatId (hne w' hw')
        (hreg w' (List.mem_cons_of_mem _ hw')))
      (fun w' hw' => by
        have := hquiet w' (List.mem_cons_of_mem _ hw')
        unfold throwsOn at this ⊢
        rw [invoke_waits_ne w w' e s (fun h => hne w' hw' h.symm)]
        exact this)
    simp only [forEachCalls, hw, if_true, hq, Bool.false_eq_true, if_false]
    refine ⟨by rw [hcalls], ?_⟩
    intro w0 wait0 h0
    by_cases h0w : w0 = w
    · subst h0w
      rw [hwaits w0 _ (invoke_waits_self w0 e s wait0 h0)]
      simp [hnotin]
    · rw [hwaits w0 wait0 (by rw [invoke_waits_ne w w0 e s (fun h => h0w h.symm)]; exact h0)]
      simp [h0w]

/-- C11 fails when a listener throws: with two waits of `sendShapeCommandAndWait` registered
on `"abc"`, in the order 0, 1, an assistant message without `parts` makes listener 0 throw,
and the dispatcher calls listener 0 only; the wait of listener 1 is as it was and listener 1
is still registered, so the event is dropped for it. -/
theorem emitSSE_stops_at_throw :
    listenersOf twoCommands "abc" = [0, 1] ∧
    (emitSSECalls replyNoParts twoCommands).2 = [0] ∧
    (emitSSE replyNoParts twoCommands).waits[1]? = twoCommands.waits[1]? ∧
    1 ∈ listenersOf (emitSSE replyNoParts twoCommands) "abc" := by
  decide

/-- C11 as amended: in every state reached from start-up, when no listener registered on the
conversation of an event throws on it, the dispatcher calls exactly the listeners registered
on that conversation when the event arrives, each once and in registration order, whether
or not they settle and unsubscribe themselves meanwhile; each of their waits is left with
the closure its listener returns for the event, and every other wait is as it was. An event
for a conversation without entry changes nothing and calls no listener. -/
theorem emitSSE_dispatches (actions : List Action) (e : StreamEvent)
    (hquiet : ∀ w ∈ listenersOf (run State.init actions) e.chatId,
      throwsOn (run State.init actions) e w = false) :
    (emitSSECalls e (run State.init actions)).2 = listenersOf (run State.init actions) e.chatId ∧
    (listenersOf (run State.init actions) e.chatId).Nodup ∧
    (∀ (w : Nat) (wait : Wait), (run State.init actions).waits[w]? = some wait →
      (emitSSE e (run State.init actions)).waits[w]?
        = some (if w ∈ listenersOf (run State.init actions) e.chatId
            then { wait with x := (wait.listener e).1 } else wait)) ∧
    (∀ (s : State) (data : StreamEvent), s.streams.lookup data.chatId = none →
      emitSSE data s = s ∧ (emitSSECalls data s).2 = []) := by
  have hc := consistent_run actions State.init consistent_init
  generalize run State.init actions = s at hquiet hc
  have hnodup := hc.nodup e.chatId
  have hnone : ∀ (s : State) (data : StreamEvent), s.streams.lookup data.chatId = none →
      emitSSE data s = s ∧ (emitSSECalls data s).2 = [] := by
    intro s data h
    simp [emitSSE, emitSSECalls, h]
  have hkey := forEachCalls_quiet e (listenersOf s e.chatId) s hnodup (fun _ h => h) hquiet
  have hcalls : emitSSECalls e s = forEachCalls e (listenersOf s e.chatId) s := by
    unfold emitSSECalls listenersOf
    cases s.streams.lookup e.chatId with
    | none => rfl
    | some entry => rfl
  refine ⟨by rw [hcalls]; exact hkey.1, hnodup, ?_, hnone⟩
  intro w wait h
  rw [← emitSSECalls_fst, hcalls]
  exact hkey.2 w wait h

/-- C11 on a call of `sendMessage` and a call of `sendShapeCommandAndWait` waiting on `"abc"`:
the reply of the example of the specification reaches both listeners, in the order in which
they subscribed, and the second one unsubscribes itself. -/
theorem emitSSE_dispatches_witness :
    (emitSSECalls replyHi (run State.init [.sendMessage "abc" "u1", .resume 0 .fulfilled,
        .sendShapeCommandAndWait "abc", .resume 1 .fulfilled])).2
      = listenersOf (run State.init [.sendMessage "abc" "u1", .resume 0 .fulfilled,
        .sendShapeCommandAndWait "abc", .resume 1 .fulfilled]) replyHi.chatId ∧
    (listenersOf (run State.init [.sendMessage "abc" "u1", .resume 0 .fulfilled,
        .sendShapeCommandAndWait "abc", .resume 1 .fulfilled]) replyHi.chatId).Nodup ∧
    (∀ (w : Nat) (wait : Wait),
      (run State.init [.sendMessage "abc" "u1", .resume 0 .fulfilled,
        .sendShapeCommandAndWait "abc", .resume 1 .fulfilled]).waits[w]? = some wait →
      (emitSSE replyHi (run State.init [.sendMessage "abc" "u1", .resume 0 .fulfilled,
        .sendShapeCommandAndWait "abc", .resume 1 .fulfilled])).waits[w]?
        = some (if w ∈ listenersOf (run State.init [.sendMessage "abc" "u1",
            .resume 0 .fulfilled, .sendShapeCommandAndWait "abc", .resume 1 .fulfilled])
              replyHi.chatId
            then { wait with x := (wait.listener replyHi).1 } else wait)) ∧
    (∀ (s : State) (data : StreamEvent), s.streams.lookup data.chatId = none →
      emitSSE data s = s ∧ (emitSSECalls data s).2 = []) :=
  emitSSE_dispatches [.sendMessage "abc" "u1", .resume 0 .fulfilled,
    .sendShapeCommandAndWait "abc", .resume 1 .fulfilled] replyHi (by decide)

end Relay
